import Mathlib

/-!
DES core of `tdea.c`.

A shallow embedding of the single-block DES primitive of `src/tdea.c`
(byte I/O, the initial permutation by masked swaps, the combined
substitution/permutation tables, the round function, the Feistel bodies and
the key schedule), followed by the textbook DES of FIPS 46-3 written with the
standard tables, and the theorems relating the two.

Machine integers are natural numbers; every C operation that can leave the
width of its type is followed by an explicit reduction modulo `2^w`.
The types of `tdea.h` are read as: `ui8`, `ui32`, `ui64` unsigned integers of
8, 32 and 64 bits, and `TDEA_DESKEY` a structure holding `ui32 data[32]`.
Arrays are lists; a pointer `p + n` into an array is the list `p.drop n`.
-/

namespace TDEA

/-! ## Machine words -/

/-- Conversion to `ui8`. -/
def u8 (x : Nat) : Nat := x % 2 ^ 8

/-- Conversion to `ui32`. -/
def u32 (x : Nat) : Nat := x % 2 ^ 32

/-- Conversion to `ui64`. -/
def u64 (x : Nat) : Nat := x % 2 ^ 64

/-- Bitwise complement `~x` of a `ui64`. -/
def not64 (x : Nat) : Nat := (2 ^ 64 - 1) ^^^ x

/-! ## Byte I/O (lines 19-41) -/

/-- The function `get32(p)`: four bytes, most significant first. Each `p[i] << n` is taken
on the 32-bit pattern of the promoted byte. -/
def get32 (p : List Nat) : Nat :=
  u32 (u32 (p.getD 0 0 <<< 24) ||| u32 (p.getD 1 0 <<< 16) ||| u32 (p.getD 2 0 <<< 8)
    ||| p.getD 3 0)

/-- The function `get64(p)`: `((ui64)get32(p) << 32) | get32(p + 4)`. -/
def get64 (p : List Nat) : Nat :=
  u64 (get32 p <<< 32) ||| get32 (p.drop 4)

/-- The function `put32(v, p)`: the buffer `p` after the four stores, `off` being the
position of `p[0]` in the underlying array. -/
def put32 (v : Nat) (p : List Nat) (off : Nat) : List Nat :=
  let p := p.set off (u8 (v >>> 24))
  let p := p.set (off + 1) (u8 (v >>> 16))
  let p := p.set (off + 2) (u8 (v >>> 8))
  p.set (off + 3) (u8 v)

/-- The function `put64(v, p)`: `put32(v >> 32, p); put32(v, p + 4)`. -/
def put64 (v : Nat) (p : List Nat) : List Nat :=
  put32 (u32 v) (put32 (u32 (v >>> 32)) p 0) 4

/-! ## Initial permutation by masked swaps (lines 43-73) -/

/-- The function `bitswap(&A, &B, mask, shift)`: the new values of `A` and `B`. -/
def bitswap (A B mask shift : Nat) : Nat × Nat :=
  let diff := ((B >>> shift) ^^^ A) &&& mask
  (A ^^^ diff, B ^^^ u32 (diff <<< shift))

/-- The function `ipfwd(v)`. -/
def ipfwd (v : Nat) : Nat :=
  let L := u32 (v >>> 32)
  let R := u32 v
  let (R, L) := bitswap R L 0x0f0f0f0f 4
  let (R, L) := bitswap R L 0x0000ffff 16
  let (L, R) := bitswap L R 0x33333333 2
  let (L, R) := bitswap L R 0x00ff00ff 8
  let (R, L) := bitswap R L 0x55555555 1
  u64 (L <<< 32) ||| R

/-- The function `iprev(v)`. -/
def iprev (v : Nat) : Nat :=
  let L := u32 (v >>> 32)
  let R := u32 v
  let (R, L) := bitswap R L 0x55555555 1
  let (L, R) := bitswap L R 0x00ff00ff 8
  let (L, R) := bitswap L R 0x33333333 2
  let (R, L) := bitswap R L 0x0000ffff 16
  let (R, L) := bitswap R L 0x0f0f0f0f 4
  u64 (L <<< 32) ||| R

/-! ## Combined substitution/permutation tables (lines 79-225) -/

/-- The literal table `sp[8][64]`. -/
def sp : List (List Nat) :=
[
  [ -- s0
    0x00808200, 0x00000000, 0x00008000, 0x00808202,
    0x00808002, 0x00008202, 0x00000002, 0x00008000,
    0x00000200, 0x00808200, 0x00808202, 0x00000200,
    0x00800202, 0x00808002, 0x00800000, 0x00000002,
    0x00000202, 0x00800200, 0x00800200, 0x00008200,
    0x00008200, 0x00808000, 0x00808000, 0x00800202,
    0x00008002, 0x00800002, 0x00800002, 0x00008002,
    0x00000000, 0x00000202, 0x00008202, 0x00800000,
    0x00008000, 0x00808202, 0x00000002, 0x00808000,
    0x00808200, 0x00800000, 0x00800000, 0x00000200,
    0x00808002, 0x00008000, 0x00008200, 0x00800002,
    0x00000200, 0x00000002, 0x00800202, 0x00008202,
    0x00808202, 0x00008002, 0x00808000, 0x00800202,
    0x00800002, 0x00000202, 0x00008202, 0x00808200,
    0x00000202, 0x00800200, 0x00800200, 0x00000000,
    0x00008002, 0x00008200, 0x00000000, 0x00808002
  ],
  [ -- s1
    0x40084010, 0x40004000, 0x00004000, 0x00084010,
    0x00080000, 0x00000010, 0x40080010, 0x40004010,
    0x40000010, 0x40084010, 0x40084000, 0x40000000,
    0x40004000, 0x00080000, 0x00000010, 0x40080010,
    0x00084000, 0x00080010, 0x40004010, 0x00000000,
    0x40000000, 0x00004000, 0x00084010, 0x40080000,
    0x00080010, 0x40000010, 0x00000000, 0x00084000,
    0x00004010, 0x40084000, 0x40080000, 0x00004010,
    0x00000000, 0x00084010, 0x40080010, 0x00080000,
    0x40004010, 0x40080000, 0x40084000, 0x00004000,
    0x40080000, 0x40004000, 0x00000010, 0x40084010,
    0x00084010, 0x00000010, 0x00004000, 0x40000000,
    0x00004010, 0x40084000, 0x00080000, 0x40000010,
    0x00080010, 0x40004010, 0x40000010, 0x00080010,
    0x00084000, 0x00000000, 0x40004000, 0x00004010,
    0x40000000, 0x40080010, 0x40084010, 0x00084000
  ],
  [ -- s2
    0x00000104, 0x04010100, 0x00000000, 0x04010004,
    0x04000100, 0x00000000, 0x00010104, 0x04000100,
    0x00010004, 0x04000004, 0x04000004, 0x00010000,
    0x04010104, 0x00010004, 0x04010000, 0x00000104,
    0x04000000, 0x00000004, 0x04010100, 0x00000100,
    0x00010100, 0x04010000, 0x04010004, 0x00010104,
    0x04000104, 0x00010100, 0x00010000, 0x04000104,
    0x00000004, 0x04010104, 0x00000100, 0x04000000,
    0x04010100, 0x04000000, 0x00010004, 0x00000104,
    0x00010000, 0x04010100, 0x04000100, 0x00000000,
    0x00000100, 0x00010004, 0x04010104, 0x04000100,
    0x04000004, 0x00000100, 0x00000000, 0x04010004,
    0x04000104, 0x00010000, 0x04000000, 0x04010104,
    0x00000004, 0x00010104, 0x00010100, 0x04000004,
    0x04010000, 0x04000104, 0x00000104, 0x04010000,
    0x00010104, 0x00000004, 0x04010004, 0x00010100
  ],
  [ -- s3
    0x80401000, 0x80001040, 0x80001040, 0x00000040,
    0x00401040, 0x80400040, 0x80400000, 0x80001000,
    0x00000000, 0x00401000, 0x00401000, 0x80401040,
    0x80000040, 0x00000000, 0x00400040, 0x80400000,
    0x80000000, 0x00001000, 0x00400000, 0x80401000,
    0x00000040, 0x00400000, 0x80001000, 0x00001040,
    0x80400040, 0x80000000, 0x00001040, 0x00400040,
    0x00001000, 0x00401040, 0x80401040, 0x80000040,
    0x00400040, 0x80400000, 0x00401000, 0x80401040,
    0x80000040, 0x00000000, 0x00000000, 0x00401000,
    0x00001040, 0x00400040, 0x80400040, 0x80000000,
    0x80401000, 0x80001040, 0x80001040, 0x00000040,
    0x80401040, 0x80000040, 0x80000000, 0x00001000,
    0x80400000, 0x80001000, 0x00401040, 0x80400040,
    0x80001000, 0x00001040, 0x00400000, 0x80401000,
    0x00000040, 0x00400000, 0x00001000, 0x00401040
  ],
  [ -- s4
    0x00000080, 0x01040080, 0x01040000, 0x21000080,
    0x00040000, 0x00000080, 0x20000000, 0x01040000,
    0x20040080, 0x00040000, 0x01000080, 0x20040080,
    0x21000080, 0x21040000, 0x00040080, 0x20000000,
    0x01000000, 0x20040000, 0x20040000, 0x00000000,
    0x20000080, 0x21040080, 0x21040080, 0x01000080,
    0x21040000, 0x20000080, 0x00000000, 0x21000000,
    0x01040080, 0x01000000, 0x21000000, 0x00040080,
    0x00040000, 0x21000080, 0x00000080, 0x01000000,
    0x20000000, 0x01040000, 0x21000080, 0x20040080,
    0x01000080, 0x20000000, 0x21040000, 0x01040080,
    0x20040080, 0x00000080, 0x01000000, 0x21040000,
    0x21040080, 0x00040080, 0x21000000, 0x21040080,
    0x01040000, 0x00000000, 0x20040000, 0x21000000,
    0x00040080, 0x01000080, 0x20000080, 0x00040000,
    0x00000000, 0x20040000, 0x01040080, 0x20000080
  ],
  [ -- s5
    0x10000008, 0x10200000, 0x00002000, 0x10202008,
    0x10200000, 0x00000008, 0x10202008, 0x00200000,
    0x10002000, 0x00202008, 0x00200000, 0x10000008,
    0x00200008, 0x10002000, 0x10000000, 0x00002008,
    0x00000000, 0x00200008, 0x10002008, 0x00002000,
    0x00202000, 0x10002008, 0x00000008, 0x10200008,
    0x10200008, 0x00000000, 0x00202008, 0x10202000,
    0x00002008, 0x00202000, 0x10202000, 0x10000000,
    0x10002000, 0x00000008, 0x10200008, 0x00202000,
    0x10202008, 0x00200000, 0x00002008, 0x10000008,
    0x00200000, 0x10002000, 0x10000000, 0x00002008,
    0x10000008, 0x10202008, 0x00202000, 0x10200000,
    0x00202008, 0x10202000, 0x00000000, 0x10200008,
    0x00000008, 0x00002000, 0x10200000, 0x00202008,
    0x00002000, 0x00200008, 0x10002008, 0x00000000,
    0x10202000, 0x10000000, 0x00200008, 0x10002008
  ],
  [ -- s6
    0x00100000, 0x02100001, 0x02000401, 0x00000000,
    0x00000400, 0x02000401, 0x00100401, 0x02100400,
    0x02100401, 0x00100000, 0x00000000, 0x02000001,
    0x00000001, 0x02000000, 0x02100001, 0x00000401,
    0x02000400, 0x00100401, 0x00100001, 0x02000400,
    0x02000001, 0x02100000, 0x02100400, 0x00100001,
    0x02100000, 0x00000400, 0x00000401, 0x02100401,
    0x00100400, 0x00000001, 0x02000000, 0x00100400,
    0x02000000, 0x00100400, 0x00100000, 0x02000401,
    0x02000401, 0x02100001, 0x02100001, 0x00000001,
    0x00100001, 0x02000000, 0x02000400, 0x00100000,
    0x02100400, 0x00000401, 0x00100401, 0x02100400,
    0x00000401, 0x02000001, 0x02100401, 0x02100000,
    0x00100400, 0x00000000, 0x00000001, 0x02100401,
    0x00000000, 0x00100401, 0x02100000, 0x00000400,
    0x02000001, 0x02000400, 0x00000400, 0x00100001
  ],
  [ -- s7
    0x08000820, 0x00000800, 0x00020000, 0x08020820,
    0x08000000, 0x08000820, 0x00000020, 0x08000000,
    0x00020020, 0x08020000, 0x08020820, 0x00020800,
    0x08020800, 0x00020820, 0x00000800, 0x00000020,
    0x08020000, 0x08000020, 0x08000800, 0x00000820,
    0x00020800, 0x00020020, 0x08020020, 0x08020800,
    0x00000820, 0x00000000, 0x00000000, 0x08020020,
    0x08000020, 0x08000800, 0x00020820, 0x00020000,
    0x00020820, 0x00020000, 0x08020800, 0x00000800,
    0x00000020, 0x08020020, 0x00000800, 0x00020820,
    0x08000800, 0x00000020, 0x08000020, 0x08020000,
    0x08020020, 0x08000000, 0x00020000, 0x08000820,
    0x00000000, 0x08020820, 0x00020020, 0x08000020,
    0x08020000, 0x08000800, 0x08000820, 0x00000000,
    0x08020820, 0x00020800, 0x00020800, 0x00000820,
    0x00000820, 0x00020020, 0x08000000, 0x08020800
  ]
]

/-- The entry `sp[i][j]`. -/
def spAt (i j : Nat) : Nat := (sp.getD i []).getD j 0

/-! ## Round function and Feistel bodies (lines 227-269) -/

/-- The function `f(R, keypair)`. -/
def f (R : Nat) (keypair : List Nat) : Nat :=
  let R := (R >>> 31) ||| u32 (R <<< 1)
  let L := ((R >>> 4) ||| u32 (R <<< 28)) ^^^ keypair.getD 0 0
  let R := R ^^^ keypair.getD 1 0
  let v := spAt 0 ((L >>> 24) &&& 0x3f)
  let v := v ||| spAt 1 ((R >>> 24) &&& 0x3f)
  let v := v ||| spAt 2 ((L >>> 16) &&& 0x3f)
  let v := v ||| spAt 3 ((R >>> 16) &&& 0x3f)
  let v := v ||| spAt 4 ((L >>> 8) &&& 0x3f)
  let v := v ||| spAt 5 ((R >>> 8) &&& 0x3f)
  let v := v ||| spAt 6 (L &&& 0x3f)
  let v := v ||| spAt 7 (R &&& 0x3f)
  v

/-- One pass of the loop body shared by both Feistel bodies, on the pair
`(L, R)`: `t = R; R = L ^ f(R, &key->data[2 * k]); L = t`. -/
def feistelRound (data : List Nat) (st : Nat × Nat) (k : Nat) : Nat × Nat :=
  (st.2, st.1 ^^^ f st.2 (data.drop (2 * k)))

/-- The function `TDEA_EncryptBody(key, v)`, `data` being `key->data`. -/
def TDEA_EncryptBody (data : List Nat) (v : Nat) : Nat :=
  let L := u32 (v >>> 32)
  let R := u32 v
  let st := (List.range 16).foldl (feistelRound data) (L, R)
  u64 (st.2 <<< 32) ||| st.1

/-- The function `TDEA_DecryptBody(key, v)`: the loop runs `k = 15, 14, ..., 0`. -/
def TDEA_DecryptBody (data : List Nat) (v : Nat) : Nat :=
  let L := u32 (v >>> 32)
  let R := u32 v
  let st := (List.range 16).reverse.foldl (feistelRound data) (L, R)
  u64 (st.2 <<< 32) ||| st.1

/-! ## Key schedule (lines 275-329) -/

/-- The table `pc1perm[56]`. -/
def pc1perm : List Nat :=
  [57, 49, 41, 33, 25, 17,  9,  1, 58, 50, 42, 34, 26, 18,
   10,  2, 59, 51, 43, 35, 27, 19, 11,  3, 60, 52, 44, 36,
   63, 55, 47, 39, 31, 23, 15,  7, 62, 54, 46, 38, 30, 22,
   14,  6, 61, 53, 45, 37, 29, 21, 13,  5, 28, 20, 12,  4]

/-- The function `pc1(v)`. -/
def pc1 (v : Nat) : Nat :=
  (List.range 56).foldl
    (fun r k => if v &&& u64 (1 <<< (64 - pc1perm.getD (55 - k) 0)) ≠ 0
                then r ||| u64 (1 <<< k) else r) 0

/-- The table `pc2perm[48]`. -/
def pc2perm : List Nat :=
  [14, 17, 11, 24,  1,  5,  3, 28, 15,  6, 21, 10,
   23, 19, 12,  4, 26,  8, 16,  7, 27, 20, 13,  2,
   41, 52, 31, 37, 47, 55, 30, 40, 51, 45, 33, 48,
   44, 49, 39, 56, 34, 53, 46, 42, 50, 36, 29, 32]

/-- The function `pc2(v)`. -/
def pc2 (v : Nat) : Nat :=
  (List.range 48).foldl
    (fun r k => if v &&& u64 (1 <<< (56 - pc2perm.getD (47 - k) 0)) ≠ 0
                then r ||| u64 (1 <<< k) else r) 0

/-- The table `shifts[16]` of `TDEA_GenDESKey`. -/
def shifts : List Nat := [1, 1, 2, 2, 2, 2, 2, 2, 1, 2, 2, 2, 2, 2, 2, 1]

/-- Lines 314-318: the update of `wkey` for a shift amount `s`. -/
def rotateKey (wkey s : Nat) : Nat :=
  let wkey := u64 (wkey <<< s)
  let m := if s > 1 then 3 else 1
  let wkey := wkey ||| ((wkey >>> 28) &&& m)
  let wkey := wkey &&& not64 (u64 (m <<< 28))
  wkey ||| ((wkey >>> 28) &&& u64 (m <<< 28))

/-- Lines 320-323: the word stored in `data[2 * k]`. -/
def packEven (rkey : Nat) : Nat :=
  u32 (u64 (((rkey >>> 42) &&& 0x3f) <<< 24) ||| u64 (((rkey >>> 30) &&& 0x3f) <<< 16) |||
       u64 (((rkey >>> 18) &&& 0x3f) <<< 8) ||| ((rkey >>> 6) &&& 0x3f))

/-- Lines 324-327: the word stored in `data[2 * k + 1]`. -/
def packOdd (rkey : Nat) : Nat :=
  u32 (u64 (((rkey >>> 36) &&& 0x3f) <<< 24) ||| u64 (((rkey >>> 24) &&& 0x3f) <<< 16) |||
       u64 (((rkey >>> 12) &&& 0x3f) <<< 8) ||| ((rkey >>> 0) &&& 0x3f))

/-- The body of the loop of `TDEA_GenDESKey` on the state `(wkey, data)`. -/
def genStep (st : Nat × List Nat) (k : Nat) : Nat × List Nat :=
  let wkey := rotateKey st.1 (shifts.getD k 0)
  let rkey := pc2 wkey
  (wkey, (st.2.set (2 * k) (packEven rkey)).set (2 * k + 1) (packOdd rkey))

/-- The function `TDEA_GenDESKey(deskey, key)`: the contents of `deskey->data` on return,
`data` being its contents on entry. -/
def TDEA_GenDESKey (data : List Nat) (key : List Nat) : List Nat :=
  ((List.range 16).foldl genStep (pc1 (get64 key), data)).2

/-! ## Single-pass ECB DES interface (lines 331-348) -/

/-- The local `TDEA_DESKEY deskey` before `TDEA_GenDESKey` fills it; each of
its 32 words is written before it is read. -/
def freshKey : List Nat := List.replicate 32 0

/-- The function `DES_Encrypt(key, data)`. -/
def DES_Encrypt (key data : Nat) : Nat :=
  let k := put64 key (List.replicate 8 0)
  let deskey := TDEA_GenDESKey freshKey k
  iprev (TDEA_EncryptBody deskey (ipfwd data))

/-- The function `DES_Decrypt(key, data)`. -/
def DES_Decrypt (key data : Nat) : Nat :=
  let k := put64 key (List.replicate 8 0)
  let deskey := TDEA_GenDESKey freshKey k
  iprev (TDEA_DecryptBody deskey (ipfwd data))

/-! ## Textbook DES (FIPS 46-3), written with the standard tables

Bits of a block are numbered from the left, starting at 1, as in the standard.
None of the definitions of this section is taken from `tdea.c`. -/

namespace Std

/-- Bit `p` of the `w`-bit block `v`, the leftmost (most significant) bit being bit 1. -/
def bit (w v p : Nat) : Bool := v.testBit (w - p)

/-- A bit-selection table applied to the `w`-bit block `v`: the bits of the result, from
left to right, are the bits of `v` that the table names. -/
def permute (table : List Nat) (w v : Nat) : Nat :=
  table.foldl (fun acc p => 2 * acc + (bit w v p).toNat) 0

/-- Initial permutation IP. -/
def IP : List Nat :=
  [58, 50, 42, 34, 26, 18, 10, 2,
   60, 52, 44, 36, 28, 20, 12, 4,
   62, 54, 46, 38, 30, 22, 14, 6,
   64, 56, 48, 40, 32, 24, 16, 8,
   57, 49, 41, 33, 25, 17,  9, 1,
   59, 51, 43, 35, 27, 19, 11, 3,
   61, 53, 45, 37, 29, 21, 13, 5,
   63, 55, 47, 39, 31, 23, 15, 7]

/-- Inverse initial permutation. -/
def IPinv : List Nat :=
  [40, 8, 48, 16, 56, 24, 64, 32,
   39, 7, 47, 15, 55, 23, 63, 31,
   38, 6, 46, 14, 54, 22, 62, 30,
   37, 5, 45, 13, 53, 21, 61, 29,
   36, 4, 44, 12, 52, 20, 60, 28,
   35, 3, 43, 11, 51, 19, 59, 27,
   34, 2, 42, 10, 50, 18, 58, 26,
   33, 1, 41,  9, 49, 17, 57, 25]

/-- Expansion E-bit selection table. -/
def E : List Nat :=
  [32,  1,  2,  3,  4,  5,
    4,  5,  6,  7,  8,  9,
    8,  9, 10, 11, 12, 13,
   12, 13, 14, 15, 16, 17,
   16, 17, 18, 19, 20, 21,
   20, 21, 22, 23, 24, 25,
   24, 25, 26, 27, 28, 29,
   28, 29, 30, 31, 32,  1]

/-- Permutation P. -/
def P : List Nat :=
  [16,  7, 20, 21,
   29, 12, 28, 17,
    1, 15, 23, 26,
    5, 18, 31, 10,
    2,  8, 24, 14,
   32, 27,  3,  9,
   19, 13, 30,  6,
   22, 11,  4, 25]

/-- The selection functions S1, ..., S8, each as four rows of sixteen columns. -/
def S : List (List Nat) :=
  [[14,  4, 13,  1,  2, 15, 11,  8,  3, 10,  6, 12,  5,  9,  0,  7,
     0, 15,  7,  4, 14,  2, 13,  1, 10,  6, 12, 11,  9,  5,  3,  8,
     4,  1, 14,  8, 13,  6,  2, 11, 15, 12,  9,  7,  3, 10,  5,  0,
    15, 12,  8,  2,  4,  9,  1,  7,  5, 11,  3, 14, 10,  0,  6, 13],
   [15,  1,  8, 14,  6, 11,  3,  4,  9,  7,  2, 13, 12,  0,  5, 10,
     3, 13,  4,  7, 15,  2,  8, 14, 12,  0,  1, 10,  6,  9, 11,  5,
     0, 14,  7, 11, 10,  4, 13,  1,  5,  8, 12,  6,  9,  3,  2, 15,
    13,  8, 10,  1,  3, 15,  4,  2, 11,  6,  7, 12,  0,  5, 14,  9],
   [10,  0,  9, 14,  6,  3, 15,  5,  1, 13, 12,  7, 11,  4,  2,  8,
    13,  7,  0,  9,  3,  4,  6, 10,  2,  8,  5, 14, 12, 11, 15,  1,
    13,  6,  4,  9,  8, 15,  3,  0, 11,  1,  2, 12,  5, 10, 14,  7,
     1, 10, 13,  0,  6,  9,  8,  7,  4, 15, 14,  3, 11,  5,  2, 12],
   [ 7, 13, 14,  3,  0,  6,  9, 10,  1,  2,  8,  5, 11, 12,  4, 15,
    13,  8, 11,  5,  6, 15,  0,  3,  4,  7,  2, 12,  1, 10, 14,  9,
    10,  6,  9,  0, 12, 11,  7, 13, 15,  1,  3, 14,  5,  2,  8,  4,
     3, 15,  0,  6, 10,  1, 13,  8,  9,  4,  5, 11, 12,  7,  2, 14],
   [ 2, 12,  4,  1,  7, 10, 11,  6,  8,  5,  3, 15, 13,  0, 14,  9,
    14, 11,  2, 12,  4,  7, 13,  1,  5,  0, 15, 10,  3,  9,  8,  6,
     4,  2,  1, 11, 10, 13,  7,  8, 15,  9, 12,  5,  6,  3,  0, 14,
    11,  8, 12,  7,  1, 14,  2, 13,  6, 15,  0,  9, 10,  4,  5,  3],
   [12,  1, 10, 15,  9,  2,  6,  8,  0, 13,  3,  4, 14,  7,  5, 11,
    10, 15,  4,  2,  7, 12,  9,  5,  6,  1, 13, 14,  0, 11,  3,  8,
     9, 14, 15,  5,  2,  8, 12,  3,  7,  0,  4, 10,  1, 13, 11,  6,
     4,  3,  2, 12,  9,  5, 15, 10, 11, 14,  1,  7,  6,  0,  8, 13],
   [ 4, 11,  2, 14, 15,  0,  8, 13,  3, 12,  9,  7,  5, 10,  6,  1,
    13,  0, 11,  7,  4,  9,  1, 10, 14,  3,  5, 12,  2, 15,  8,  6,
     1,  4, 11, 13, 12,  3,  7, 14, 10, 15,  6,  8,  0,  5,  9,  2,
     6, 11, 13,  8,  1,  4, 10,  7,  9,  5,  0, 15, 14,  2,  3, 12],
   [13,  2,  8,  4,  6, 15, 11,  1, 10,  9,  3, 14,  5,  0, 12,  7,
     1, 15, 13,  8, 10,  3,  7,  4, 12,  5,  6, 11,  0, 14,  9,  2,
     7, 11,  4,  1,  9, 12, 14,  2,  0,  6, 10, 13, 15,  3,  5,  8,
     2,  1, 14,  7,  4, 10,  8, 13, 15, 12,  9,  0,  3,  5,  6, 11]]

/-- Permuted choice 1. -/
def PC1 : List Nat :=
  [57, 49, 41, 33, 25, 17,  9,
    1, 58, 50, 42, 34, 26, 18,
   10,  2, 59, 51, 43, 35, 27,
   19, 11,  3, 60, 52, 44, 36,
   63, 55, 47, 39, 31, 23, 15,
    7, 62, 54, 46, 38, 30, 22,
   14,  6, 61, 53, 45, 37, 29,
   21, 13,  5, 28, 20, 12,  4]

/-- Permuted choice 2. -/
def PC2 : List Nat :=
  [14, 17, 11, 24,  1,  5,
    3, 28, 15,  6, 21, 10,
   23, 19, 12,  4, 26,  8,
   16,  7, 27, 20, 13,  2,
   41, 52, 31, 37, 47, 55,
   30, 40, 51, 45, 33, 48,
   44, 49, 39, 56, 34, 53,
   46, 42, 50, 36, 29, 32]

/-- Number of left shifts in iteration `n` of the key schedule, `n = 1, ..., 16`. -/
def leftShifts (n : Nat) : Nat :=
  if n = 1 ∨ n = 2 ∨ n = 9 ∨ n = 16 then 1 else 2

/-- Selection function `S_n` (`n = 1, ..., 8`) on the 6-bit block `b`: the first and the
last bit of `b` give the row, the middle four bits the column. -/
def sbox (n b : Nat) : Nat :=
  let row := 2 * (b / 32 % 2) + b % 2
  let col := b / 2 % 16
  (S.getD (n - 1) []).getD (16 * row + col) 0

/-- The 6-bit block `B_n` (`n = 1, ..., 8`) of the 48-bit block `x = B_1 ... B_8`. -/
def sixBits (x n : Nat) : Nat := (x >>> (48 - 6 * n)) % 64

/-- The 32-bit block `S_1(B_1) S_2(B_2) ... S_8(B_8)` for the 48-bit block `x = B_1 ... B_8`. -/
def substitute (x : Nat) : Nat :=
  (sbox 1 (sixBits x 1) <<< 28) ||| (sbox 2 (sixBits x 2) <<< 24) |||
  (sbox 3 (sixBits x 3) <<< 20) ||| (sbox 4 (sixBits x 4) <<< 16) |||
  (sbox 5 (sixBits x 5) <<< 12) ||| (sbox 6 (sixBits x 6) <<< 8) |||
  (sbox 7 (sixBits x 7) <<< 4) ||| sbox 8 (sixBits x 8)

/-- Cipher function `f(R, K) = P(S_1(B_1) ... S_8(B_8))` with `B_1 ... B_8 = K xor E(R)`. -/
def cipherF (R K : Nat) : Nat :=
  permute P 32 (substitute (K ^^^ permute E 32 R))

/-- Circular left shift of a 28-bit block by `s` places. -/
def rotl28 (x s : Nat) : Nat := ((x <<< s) ||| (x >>> (28 - s))) % 2 ^ 28

/-- The pair `(C_n, D_n)` of the key schedule: `C_0 D_0 = PC-1(KEY)`, and `C_n`, `D_n` are
`C_(n-1)`, `D_(n-1)` shifted left circularly by `leftShifts n` places. -/
def CD (key : Nat) : Nat → Nat × Nat
  | 0 => (permute PC1 64 key >>> 28, permute PC1 64 key % 2 ^ 28)
  | n + 1 => (rotl28 (CD key n).1 (leftShifts (n + 1)), rotl28 (CD key n).2 (leftShifts (n + 1)))

/-- The 48-bit key `K_n = PC-2(C_n D_n)` of iteration `n = 1, ..., 16`. -/
def K (key n : Nat) : Nat :=
  permute PC2 56 (((CD key n).1 <<< 28) ||| (CD key n).2)

/-- The pair `(L_n, R_n)` when the keys of the iterations are given by `ks`:
`L_n = R_(n-1)`, `R_n = L_(n-1) xor f(R_(n-1), K_n)`. -/
def rounds (ks : Nat → Nat) (L0 R0 : Nat) : Nat → Nat × Nat
  | 0 => (L0, R0)
  | n + 1 => ((rounds ks L0 R0 n).2,
              (rounds ks L0 R0 n).1 ^^^ cipherF (rounds ks L0 R0 n).2 (ks (n + 1)))

/-- Enciphering of the 64-bit block `block` under the 64-bit key `key`: the initial
permutation, sixteen iterations, and the inverse initial permutation applied to the
preoutput block `R_16 L_16`. -/
def encrypt (key block : Nat) : Nat :=
  let x := permute IP 64 block
  let LR := rounds (K key) (x >>> 32) (x % 2 ^ 32) 16
  permute IPinv 64 ((LR.2 <<< 32) ||| LR.1)

/-- Deciphering: the same computation with the keys taken in the order `K_16, ..., K_1`. -/
def decrypt (key block : Nat) : Nat :=
  let x := permute IP 64 block
  let LR := rounds (fun n => K key (17 - n)) (x >>> 32) (x % 2 ^ 32) 16
  permute IPinv 64 ((LR.2 <<< 32) ||| LR.1)

/-- The entry of combined table `i` (`i = 0, ..., 7`) at the 6-bit input `j`, generated from
the standard data: the output of `S_(i+1)` placed in nibble `i` of a 32-bit word (nibble 0
leftmost), then permuted by `P`. -/
def genSP (i j : Nat) : Nat :=
  permute P 32 (sbox (i + 1) j <<< (28 - 4 * i))

end Std

/-! ## Notions used in the statements -/

/-- The schedule that holds, at pair position `k`, the pair `15 - k` of `data`. -/
def reversePairs (data : List Nat) : List Nat :=
  (List.range 16).flatMap
    (fun k => [data.getD (2 * (15 - k)) 0, data.getD (2 * (15 - k) + 1) 0])

/-- The parity bits of a 64-bit key: the least significant bit of each of its bytes. -/
def parityMask : Nat := 0x0101010101010101

/-- Bitwise complement of an `n`-bit block. -/
def complement (n x : Nat) : Nat := (2 ^ n - 1) ^^^ x

/-- Number of bits set among the low 64 bits of `x`. -/
def popCount (x : Nat) : Nat := ((List.range 64).filter (fun k => x.testBit k)).length

/-- Rotation of a 32-bit word to the left by `n` places. -/
def rotl32 (x n : Nat) : Nat := ((x <<< n) ||| (x >>> (32 - n))) % 2 ^ 32

/-- Rotation of a 32-bit word to the right by `n` places. -/
def rotr32 (x n : Nat) : Nat := ((x >>> n) ||| (x <<< (32 - n))) % 2 ^ 32

/-- Byte `k` of a word, byte 0 being the least significant. -/
def byteOf (x k : Nat) : Nat := (x >>> (8 * k)) % 256

/-- The top six bits of a byte. -/
def topSix (b : Nat) : Nat := b >>> 2

/-- The low six bits of a byte. -/
def lowSix (b : Nat) : Nat := b % 64

/-- The round function as section 4.4 of the specification words it: the input rotated left
by 1, the two intermediate values, and as table indices the top six bits of each byte of the
first value (tables 0, 2, 4, 6) and of the second (tables 1, 3, 5, 7). -/
def fTopSix (R : Nat) (keypair : List Nat) : Nat :=
  let r := rotl32 R 1
  let a := rotr32 r 4 ^^^ keypair.getD 0 0
  let b := r ^^^ keypair.getD 1 0
  spAt 0 (topSix (byteOf a 3)) ||| spAt 1 (topSix (byteOf b 3)) |||
  spAt 2 (topSix (byteOf a 2)) ||| spAt 3 (topSix (byteOf b 2)) |||
  spAt 4 (topSix (byteOf a 1)) ||| spAt 5 (topSix (byteOf b 1)) |||
  spAt 6 (topSix (byteOf a 0)) ||| spAt 7 (topSix (byteOf b 0))

/-- The same description with the low six bits of each byte as table indices. -/
def fLowSix (R : Nat) (keypair : List Nat) : Nat :=
  let r := rotl32 R 1
  let a := rotr32 r 4 ^^^ keypair.getD 0 0
  let b := r ^^^ keypair.getD 1 0
  spAt 0 (lowSix (byteOf a 3)) ||| spAt 1 (lowSix (byteOf b 3)) |||
  spAt 2 (lowSix (byteOf a 2)) ||| spAt 3 (lowSix (byteOf b 2)) |||
  spAt 4 (lowSix (byteOf a 1)) ||| spAt 5 (lowSix (byteOf b 1)) |||
  spAt 6 (lowSix (byteOf a 0)) ||| spAt 7 (lowSix (byteOf b 0))

/-- The eight table lookups of `f(R, keypair)`, for the tables 0 to 7 in this order. -/
def lookups (R : Nat) (keypair : List Nat) : List Nat :=
  let R := (R >>> 31) ||| u32 (R <<< 1)
  let L := ((R >>> 4) ||| u32 (R <<< 28)) ^^^ keypair.getD 0 0
  let R := R ^^^ keypair.getD 1 0
  [spAt 0 ((L >>> 24) &&& 0x3f), spAt 1 ((R >>> 24) &&& 0x3f),
   spAt 2 ((L >>> 16) &&& 0x3f), spAt 3 ((R >>> 16) &&& 0x3f),
   spAt 4 ((L >>> 8) &&& 0x3f), spAt 5 ((R >>> 8) &&& 0x3f),
   spAt 6 (L &&& 0x3f), spAt 7 (R &&& 0x3f)]

/-- The bitwise OR of all 64 entries of table `i`. -/
def tableOr (i : Nat) : Nat := (sp.getD i []).foldl (fun a x => a ||| x) 0

/-- A Feistel body of the shape of `TDEA_EncryptBody` and `TDEA_DecryptBody` with an arbitrary
round function `g` (of the right half and the round index, converted to `ui32`), the rounds
being run in the order given by `order`. -/
def feistelBodyWith (g : Nat → Nat → Nat) (order : List Nat) (v : Nat) : Nat :=
  let L := u32 (v >>> 32)
  let R := u32 v
  let st := order.foldl (fun st k => (st.2, st.1 ^^^ u32 (g st.2 k))) (L, R)
  u64 (st.2 <<< 32) ||| st.1


/-! ## Words -/

theorem u8_lt (x : Nat) : u8 x < 2 ^ 8 := Nat.mod_lt _ (by decide)
theorem u32_lt (x : Nat) : u32 x < 2 ^ 32 := Nat.mod_lt _ (by decide)
theorem u64_lt (x : Nat) : u64 x < 2 ^ 64 := Nat.mod_lt _ (by decide)
theorem u32_of_lt {x : Nat} (h : x < 2 ^ 32) : u32 x = x := Nat.mod_eq_of_lt h
theorem u64_of_lt {x : Nat} (h : x < 2 ^ 64) : u64 x = x := Nat.mod_eq_of_lt h
theorem u8_of_lt {x : Nat} (h : x < 2 ^ 8) : u8 x = x := Nat.mod_eq_of_lt h

theorem testBit_u8 (x i : Nat) : (u8 x).testBit i = (decide (i < 8) && x.testBit i) :=
  Nat.testBit_mod_two_pow x 8 i
theorem testBit_u32 (x i : Nat) : (u32 x).testBit i = (decide (i < 32) && x.testBit i) :=
  Nat.testBit_mod_two_pow x 32 i
theorem testBit_u64 (x i : Nat) : (u64 x).testBit i = (decide (i < 64) && x.testBit i) :=
  Nat.testBit_mod_two_pow x 64 i

theorem testBit_eq_false_of_lt {x n i : Nat} (h : x < 2 ^ n) (hi : n ≤ i) :
    x.testBit i = false :=
  Nat.testBit_lt_two_pow (lt_of_lt_of_le h (Nat.pow_le_pow_right (by decide) hi))

/-! ## Byte I/O -/

theorem length_eight {l : List Nat} (h : l.length = 8) :
    ∃ a0 a1 a2 a3 a4 a5 a6 a7, l = [a0, a1, a2, a3, a4, a5, a6, a7] := by
  match l, h with
  | [a0, a1, a2, a3, a4, a5, a6, a7], _ => exact ⟨a0, a1, a2, a3, a4, a5, a6, a7, rfl⟩

theorem put64_eq (v : Nat) (p : List Nat) (h : p.length = 8) :
    put64 v p = [u8 (u32 (v >>> 32) >>> 24), u8 (u32 (v >>> 32) >>> 16),
      u8 (u32 (v >>> 32) >>> 8), u8 (u32 (v >>> 32)),
      u8 (u32 v >>> 24), u8 (u32 v >>> 16), u8 (u32 v >>> 8), u8 (u32 v)] := by
  obtain ⟨a0, a1, a2, a3, a4, a5, a6, a7, rfl⟩ := length_eight h
  rfl

theorem get64_put64 (v : Nat) (p : List Nat) (hv : v < 2 ^ 64) (h : p.length = 8) :
    get64 (put64 v p) = v := by
  rw [put64_eq v p h]
  apply Nat.eq_of_testBit_eq
  intro i
  by_cases hi : i < 64
  · simp only [get64, get32, List.getD_cons_zero, List.getD_cons_succ, List.drop_succ_cons,
      List.drop_zero, Nat.testBit_or, testBit_u64, testBit_u32, testBit_u8,
      Nat.testBit_shiftLeft, Nat.testBit_shiftRight]
    interval_cases i <;> simp
  · rw [testBit_eq_false_of_lt hv (by omega)]
    simp [get64, get32, testBit_u64, testBit_u32, Nat.testBit_shiftLeft]
    omega

theorem put64_byte0 (v : Nat) (p : List Nat) (hv : v < 2 ^ 64) (h : p.length = 8) :
    (put64 v p).getD 0 0 = v >>> 56 := by
  rw [put64_eq v p h]
  simp only [List.getD_cons_zero, u8, u32, Nat.shiftRight_eq_div_pow]
  omega

theorem byte_eq_of_testBit {x y : Nat} (hx : x < 2 ^ 8) (hy : y < 2 ^ 8)
    (h : ∀ i, i < 8 → x.testBit i = y.testBit i) : x = y := by
  apply Nat.eq_of_testBit_eq
  intro i
  by_cases hi : i < 8
  · exact h i hi
  · rw [testBit_eq_false_of_lt hx (by omega), testBit_eq_false_of_lt hy (by omega)]

theorem list_eight_ext {a0 a1 a2 a3 a4 a5 a6 a7 b0 b1 b2 b3 b4 b5 b6 b7 : Nat}
    (h0 : a0 = b0) (h1 : a1 = b1) (h2 : a2 = b2) (h3 : a3 = b3)
    (h4 : a4 = b4) (h5 : a5 = b5) (h6 : a6 = b6) (h7 : a7 = b7) :
    [a0, a1, a2, a3, a4, a5, a6, a7] = [b0, b1, b2, b3, b4, b5, b6, b7] := by
  subst h0 h1 h2 h3 h4 h5 h6 h7
  rfl

theorem put64_get64 (b p : List Nat) (hb : b.length = 8) (hbytes : ∀ x ∈ b, x < 2 ^ 8)
    (h : p.length = 8) : put64 (get64 b) p = b := by
  rw [put64_eq _ p h]
  obtain ⟨b0, b1, b2, b3, b4, b5, b6, b7, rfl⟩ := length_eight hb
  have h0 : b0 < 2 ^ 8 := hbytes b0 (by simp)
  have h1 : b1 < 2 ^ 8 := hbytes b1 (by simp)
  have h2 : b2 < 2 ^ 8 := hbytes b2 (by simp)
  have h3 : b3 < 2 ^ 8 := hbytes b3 (by simp)
  have h4 : b4 < 2 ^ 8 := hbytes b4 (by simp)
  have h5 : b5 < 2 ^ 8 := hbytes b5 (by simp)
  have h6 : b6 < 2 ^ 8 := hbytes b6 (by simp)
  have h7 : b7 < 2 ^ 8 := hbytes b7 (by simp)
  have t0 : ∀ i, 8 ≤ i → b0.testBit i = false := fun i hi => testBit_eq_false_of_lt h0 hi
  have t1 : ∀ i, 8 ≤ i → b1.testBit i = false := fun i hi => testBit_eq_false_of_lt h1 hi
  have t2 : ∀ i, 8 ≤ i → b2.testBit i = false := fun i hi => testBit_eq_false_of_lt h2 hi
  have t3 : ∀ i, 8 ≤ i → b3.testBit i = false := fun i hi => testBit_eq_false_of_lt h3 hi
  have t4 : ∀ i, 8 ≤ i → b4.testBit i = false := fun i hi => testBit_eq_false_of_lt h4 hi
  have t5 : ∀ i, 8 ≤ i → b5.testBit i = false := fun i hi => testBit_eq_false_of_lt h5 hi
  have t6 : ∀ i, 8 ≤ i → b6.testBit i = false := fun i hi => testBit_eq_false_of_lt h6 hi
  have t7 : ∀ i, 8 ≤ i → b7.testBit i = false := fun i hi => testBit_eq_false_of_lt h7 hi
  simp only [get64, get32, List.getD_cons_zero, List.getD_cons_succ, List.drop_succ_cons,
      List.drop_zero]
  apply list_eight_ext
  all_goals
    apply byte_eq_of_testBit (u8_lt _) (by assumption)
    intro i hi
    simp only [Nat.testBit_or, testBit_u64, testBit_u32, testBit_u8,
      Nat.testBit_shiftLeft, Nat.testBit_shiftRight]
    interval_cases i <;> simp [t0, t1, t2, t3, t4, t5, t6, t7]


/-! ## Bits of a table permutation -/

theorem testBit_two_mul_add (a : Nat) (b : Bool) (i : Nat) :
    (2 * a + b.toNat).testBit i = if i = 0 then b else a.testBit (i - 1) := by
  cases i with
  | zero =>
    cases b <;> simp [Nat.testBit_zero, Nat.add_mod]
  | succ j =>
    rw [Nat.testBit_succ]
    have : (2 * a + b.toNat) / 2 = a := by cases b <;> simp <;> omega
    simp [this]

theorem testBit_foldl_select (g : Nat → Bool) (table : List Nat) (acc i : Nat) :
    (table.foldl (fun a p => 2 * a + (g p).toNat) acc).testBit i =
      if i < table.length then g (table.getD (table.length - 1 - i) 0)
      else acc.testBit (i - table.length) := by
  induction table generalizing acc with
  | nil => simp
  | cons p ps ih =>
    rw [List.foldl_cons, ih, List.length_cons]
    by_cases h1 : i < ps.length
    · have h2 : i < ps.length + 1 := by omega
      have h3 : ps.length + 1 - 1 - i = (ps.length - 1 - i) + 1 := by omega
      rw [if_pos h1, if_pos h2, h3, List.getD_cons_succ]
    · rw [if_neg h1, testBit_two_mul_add]
      by_cases h2 : i = ps.length
      · subst h2
        simp
      · have h4 : ¬ i < ps.length + 1 := by omega
        have h5 : ¬ i - ps.length = 0 := by omega
        rw [if_neg h5, if_neg h4]
        congr 1

theorem testBit_permute (table : List Nat) (w v i : Nat) :
    (Std.permute table w v).testBit i =
      (decide (i < table.length) && v.testBit (w - table.getD (table.length - 1 - i) 0)) := by
  unfold Std.permute
  rw [testBit_foldl_select (Std.bit w v)]
  by_cases h : i < table.length
  · simp [h, Std.bit]
  · simp [h]

theorem permute_lt (table : List Nat) (w v : Nat) :
    Std.permute table w v < 2 ^ table.length := by
  apply Nat.lt_pow_two_of_testBit
  intro i hi
  rw [testBit_permute]
  simp
  omega

/-! ## Bits of the masked swaps -/

theorem testBit_bitswap_fst (A B mask shift i : Nat) :
    (bitswap A B mask shift).1.testBit i =
      if mask.testBit i then B.testBit (shift + i) else A.testBit i := by
  simp only [bitswap, Nat.testBit_xor, Nat.testBit_and, Nat.testBit_shiftRight]
  cases mask.testBit i <;> cases A.testBit i <;> cases B.testBit (shift + i) <;> rfl

theorem testBit_bitswap_snd (A B mask shift i : Nat) :
    (bitswap A B mask shift).2.testBit i =
      if (decide (i < 32) && decide (shift ≤ i) && mask.testBit (i - shift)) then
        A.testBit (i - shift)
      else B.testBit i := by
  simp only [bitswap, Nat.testBit_xor, Nat.testBit_and, Nat.testBit_shiftRight,
    Nat.testBit_shiftLeft, testBit_u32]
  by_cases hs : shift ≤ i
  · rw [Nat.add_sub_cancel' hs]
    cases mask.testBit (i - shift) <;> cases A.testBit (i - shift) <;> cases B.testBit i <;>
      cases decide (i < 32) <;> simp [hs]
  · simp [hs]

theorem testBit_mask4 (i : Nat) :
    Nat.testBit 0x0f0f0f0f i = (decide (i < 32) && decide (i % 8 < 4)) := by
  by_cases hi : i < 32
  · interval_cases i <;> decide
  · rw [testBit_eq_false_of_lt (n := 32) (by decide) (by omega)]; simp [hi]

theorem testBit_mask16 (i : Nat) : Nat.testBit 0x0000ffff i = decide (i < 16) := by
  by_cases hi : i < 32
  · interval_cases i <;> decide
  · rw [testBit_eq_false_of_lt (n := 32) (by decide) (by omega)]; simp; omega

theorem testBit_mask2 (i : Nat) :
    Nat.testBit 0x33333333 i = (decide (i < 32) && decide (i % 4 < 2)) := by
  by_cases hi : i < 32
  · interval_cases i <;> decide
  · rw [testBit_eq_false_of_lt (n := 32) (by decide) (by omega)]; simp [hi]

theorem testBit_mask8 (i : Nat) :
    Nat.testBit 0x00ff00ff i = (decide (i < 32) && decide (i % 16 < 8)) := by
  by_cases hi : i < 32
  · interval_cases i <;> decide
  · rw [testBit_eq_false_of_lt (n := 32) (by decide) (by omega)]; simp [hi]

theorem testBit_mask1 (i : Nat) :
    Nat.testBit 0x55555555 i = (decide (i < 32) && decide (i % 2 < 1)) := by
  by_cases hi : i < 32
  · interval_cases i <;> decide
  · rw [testBit_eq_false_of_lt (n := 32) (by decide) (by omega)]; simp [hi]

theorem testBit_ipfwd (v i : Nat) (hi : i < 64) :
    (ipfwd v).testBit i = v.testBit (64 - (Std.IP.getD (63 - i) 0)) := by
  simp only [ipfwd, Nat.testBit_or, testBit_u64, Nat.testBit_shiftLeft]
  interval_cases i <;>
  simp [-Nat.testBit_zero, testBit_bitswap_fst, testBit_bitswap_snd, testBit_mask1, testBit_mask2, testBit_mask4, testBit_mask8, testBit_mask16, testBit_u32, Nat.testBit_shiftRight, Std.IP]

theorem testBit_iprev (v i : Nat) (hi : i < 64) :
    (iprev v).testBit i = v.testBit (64 - (Std.IPinv.getD (63 - i) 0)) := by
  simp only [iprev, Nat.testBit_or, testBit_u64, Nat.testBit_shiftLeft]
  interval_cases i <;>
  simp [-Nat.testBit_zero, testBit_bitswap_fst, testBit_bitswap_snd, testBit_mask1, testBit_mask2, testBit_mask4, testBit_mask8, testBit_mask16, testBit_u32, Nat.testBit_shiftRight, Std.IPinv]


theorem permute_IP_lt (v : Nat) : Std.permute Std.IP 64 v < 2 ^ 64 :=
  permute_lt Std.IP 64 v

theorem permute_IPinv_lt (v : Nat) : Std.permute Std.IPinv 64 v < 2 ^ 64 :=
  permute_lt Std.IPinv 64 v

theorem testBit_ipfwd_high (v i : Nat) (hi : 64 ≤ i) : (ipfwd v).testBit i = false := by
  have h16 : ¬ i < 16 := by omega
  have h32 : ¬ i < 32 := by omega
  have h64 : ¬ i < 64 := by omega
  simp [ipfwd, testBit_u64, testBit_bitswap_fst, testBit_bitswap_snd, testBit_mask1, testBit_mask2, testBit_mask4,
    testBit_mask8, testBit_mask16, testBit_u32, h16, h32, h64]

theorem testBit_iprev_high (v i : Nat) (hi : 64 ≤ i) : (iprev v).testBit i = false := by
  have h16 : ¬ i < 16 := by omega
  have h32 : ¬ i < 32 := by omega
  have h64 : ¬ i < 64 := by omega
  simp [iprev, testBit_u64, testBit_bitswap_fst, testBit_bitswap_snd, testBit_mask1, testBit_mask2, testBit_mask4,
    testBit_mask8, testBit_mask16, testBit_u32, h16, h32, h64]

theorem ipfwd_eq_permute (v : Nat) : ipfwd v = Std.permute Std.IP 64 v := by
  apply Nat.eq_of_testBit_eq
  intro i
  by_cases hi : i < 64
  · rw [testBit_ipfwd v i hi, testBit_permute]
    simp [hi, Std.IP]
  · rw [testBit_eq_false_of_lt (permute_IP_lt v) (by omega), testBit_ipfwd_high v i (by omega)]

theorem iprev_eq_permute (v : Nat) : iprev v = Std.permute Std.IPinv 64 v := by
  apply Nat.eq_of_testBit_eq
  intro i
  by_cases hi : i < 64
  · rw [testBit_iprev v i hi, testBit_permute]
    simp [hi, Std.IPinv]
  · rw [testBit_eq_false_of_lt (permute_IPinv_lt v) (by omega),
      testBit_iprev_high v i (by omega)]

theorem ipfwd_lt (v : Nat) : ipfwd v < 2 ^ 64 := by
  rw [ipfwd_eq_permute]; exact permute_IP_lt v

theorem iprev_lt (v : Nat) : iprev v < 2 ^ 64 := by
  rw [iprev_eq_permute]; exact permute_IPinv_lt v

theorem iprev_ipfwd (v : Nat) (hv : v < 2 ^ 64) : iprev (ipfwd v) = v := by
  apply Nat.eq_of_testBit_eq
  intro i
  by_cases hi : i < 64
  · interval_cases i <;>
      simp [-Nat.testBit_zero, testBit_iprev, testBit_ipfwd, Std.IP, Std.IPinv]
  · rw [testBit_iprev_high _ i (by omega), testBit_eq_false_of_lt hv (by omega)]

theorem ipfwd_iprev (v : Nat) (hv : v < 2 ^ 64) : ipfwd (iprev v) = v := by
  apply Nat.eq_of_testBit_eq
  intro i
  by_cases hi : i < 64
  · interval_cases i <;>
      simp [-Nat.testBit_zero, testBit_iprev, testBit_ipfwd, Std.IP, Std.IPinv]
  · rw [testBit_ipfwd_high _ i (by omega), testBit_eq_false_of_lt hv (by omega)]

/-! ## Halves of a block -/

theorem join_lt (L R : Nat) (hR : R < 2 ^ 32) : u64 (L <<< 32) ||| R < 2 ^ 64 :=
  Nat.or_lt_two_pow (u64_lt _) (lt_of_lt_of_le hR (by decide))

theorem hi_join (L R : Nat) (hL : L < 2 ^ 32) (hR : R < 2 ^ 32) :
    u32 ((u64 (L <<< 32) ||| R) >>> 32) = L := by
  apply Nat.eq_of_testBit_eq
  intro i
  simp only [testBit_u32, Nat.testBit_shiftRight, Nat.testBit_or, testBit_u64,
    Nat.testBit_shiftLeft]
  rw [testBit_eq_false_of_lt hR (by omega : 32 ≤ 32 + i)]
  by_cases hi : i < 32
  · have h1 : 32 + i < 64 := by omega
    simp [hi, h1]
  · rw [testBit_eq_false_of_lt hL (by omega : 32 ≤ i)]; simp [hi]

theorem lo_join (L R : Nat) (hR : R < 2 ^ 32) : u32 (u64 (L <<< 32) ||| R) = R := by
  apply Nat.eq_of_testBit_eq
  intro i
  simp only [testBit_u32, Nat.testBit_or, testBit_u64, Nat.testBit_shiftLeft]
  by_cases hi : i < 32
  · have : ¬ 32 ≤ i := by omega
    simp [hi, this]
  · rw [testBit_eq_false_of_lt hR (by omega : 32 ≤ i)]; simp [hi]

theorem join_split (v : Nat) (hv : v < 2 ^ 64) : u64 (u32 (v >>> 32) <<< 32) ||| u32 v = v := by
  apply Nat.eq_of_testBit_eq
  intro i
  simp only [testBit_u32, Nat.testBit_or, testBit_u64, Nat.testBit_shiftLeft,
    Nat.testBit_shiftRight]
  by_cases hi : i < 32
  · have : ¬ 32 ≤ i := by omega
    simp [hi, this]
  · by_cases h64 : i < 64
    · have h1 : 32 ≤ i := by omega
      have h2 : i - 32 < 32 := by omega
      simp [hi, h64, h1, h2, Nat.add_sub_cancel' h1]
    · rw [testBit_eq_false_of_lt hv (by omega : 64 ≤ i)]; simp [h64]

/-! ## The round function stays within 32 bits -/

theorem spAt_lt : ∀ i < 8, ∀ j < 64, spAt i j < 2 ^ 32 := by decide!

theorem and_63_lt (x : Nat) : x &&& 0x3f < 64 :=
  Nat.and_lt_two_pow x (n := 6) (by decide)

theorem f_lt (R : Nat) (keypair : List Nat) : f R keypair < 2 ^ 32 := by
  unfold f
  simp only
  repeat apply Nat.or_lt_two_pow
  all_goals exact spAt_lt _ (by decide) _ (and_63_lt _)

theorem f_congr (R : Nat) (kp kq : List Nat) (h0 : kp.getD 0 0 = kq.getD 0 0)
    (h1 : kp.getD 1 0 = kq.getD 1 0) : f R kp = f R kq := by
  unfold f
  simp only [h0, h1]

/-! ## Feistel bodies -/

theorem feistelRound_lt (data : List Nat) (st : Nat × Nat) (k : Nat)
    (h : st.1 < 2 ^ 32 ∧ st.2 < 2 ^ 32) :
    (feistelRound data st k).1 < 2 ^ 32 ∧ (feistelRound data st k).2 < 2 ^ 32 :=
  ⟨h.2, Nat.xor_lt_two_pow h.1 (f_lt _ _)⟩

theorem foldl_feistelRound_lt (data : List Nat) (ks : List Nat) (st : Nat × Nat)
    (h : st.1 < 2 ^ 32 ∧ st.2 < 2 ^ 32) :
    (ks.foldl (feistelRound data) st).1 < 2 ^ 32 ∧
    (ks.foldl (feistelRound data) st).2 < 2 ^ 32 := by
  induction ks generalizing st with
  | nil => exact h
  | cons k ks ih => exact ih _ (feistelRound_lt data st k h)

theorem feistelRound_swap (data : List Nat) (st : Nat × Nat) (k : Nat) :
    feistelRound data (feistelRound data st k).swap k = st.swap := by
  simp [feistelRound, Prod.swap, Nat.xor_assoc]

theorem foldl_feistelRound_reverse (data : List Nat) (ks : List Nat) (st : Nat × Nat) :
    ks.reverse.foldl (feistelRound data) (ks.foldl (feistelRound data) st).swap = st.swap := by
  induction ks generalizing st with
  | nil => rfl
  | cons k ks ih =>
    rw [List.foldl_cons, List.reverse_cons, List.foldl_append, ih]
    exact feistelRound_swap data st k

theorem decryptBody_encryptBody (data : List Nat) (v : Nat) (hv : v < 2 ^ 64) :
    TDEA_DecryptBody data (TDEA_EncryptBody data v) = v := by
  unfold TDEA_DecryptBody TDEA_EncryptBody
  simp only
  have hb := foldl_feistelRound_lt data (List.range 16) (u32 (v >>> 32), u32 v)
    ⟨u32_lt _, u32_lt _⟩
  rw [hi_join _ _ hb.2 hb.1, lo_join _ _ hb.1]
  have h := foldl_feistelRound_reverse data (List.range 16) (u32 (v >>> 32), u32 v)
  rw [show (((List.range 16).foldl (feistelRound data) (u32 (v >>> 32), u32 v)).2,
        ((List.range 16).foldl (feistelRound data) (u32 (v >>> 32), u32 v)).1) =
        ((List.range 16).foldl (feistelRound data) (u32 (v >>> 32), u32 v)).swap from rfl, h]
  exact join_split v hv

theorem encryptBody_lt (data : List Nat) (v : Nat) : TDEA_EncryptBody data v < 2 ^ 64 :=
  join_lt _ _ (foldl_feistelRound_lt data (List.range 16) (u32 (v >>> 32), u32 v)
    ⟨u32_lt _, u32_lt _⟩).1

theorem decryptBody_lt (data : List Nat) (v : Nat) : TDEA_DecryptBody data v < 2 ^ 64 :=
  join_lt _ _ (foldl_feistelRound_lt data (List.range 16).reverse (u32 (v >>> 32), u32 v)
    ⟨u32_lt _, u32_lt _⟩).1

theorem des_decrypt_encrypt (key block : Nat) (hb : block < 2 ^ 64) :
    DES_Decrypt key (DES_Encrypt key block) = block := by
  unfold DES_Decrypt DES_Encrypt
  simp only
  rw [ipfwd_iprev _ (encryptBody_lt _ _), decryptBody_encryptBody _ _ (ipfwd_lt _),
    iprev_ipfwd _ hb]

/-! ## Decryption as encryption under the reversed schedule -/

theorem getD_drop (l : List Nat) (n i : Nat) : (l.drop n).getD i 0 = l.getD (n + i) 0 := by
  simp [List.getD_eq_getElem?_getD, List.getElem?_drop]

theorem reversePairs_eq (data : List Nat) : reversePairs data =
    [data.getD 30 0, data.getD 31 0, data.getD 28 0, data.getD 29 0, data.getD 26 0,
     data.getD 27 0, data.getD 24 0, data.getD 25 0, data.getD 22 0, data.getD 23 0,
     data.getD 20 0, data.getD 21 0, data.getD 18 0, data.getD 19 0, data.getD 16 0,
     data.getD 17 0, data.getD 14 0, data.getD 15 0, data.getD 12 0, data.getD 13 0,
     data.getD 10 0, data.getD 11 0, data.getD 8 0, data.getD 9 0, data.getD 6 0,
     data.getD 7 0, data.getD 4 0, data.getD 5 0, data.getD 2 0, data.getD 3 0,
     data.getD 0 0, data.getD 1 0] := rfl

theorem feistelRound_reversePairs (data : List Nat) (st : Nat × Nat) (k : Nat) (hk : k < 16) :
    feistelRound (reversePairs data) st k = feistelRound data st (15 - k) := by
  unfold feistelRound
  congr 2
  apply f_congr
  · rw [getD_drop, getD_drop, reversePairs_eq]
    interval_cases k <;> rfl
  · rw [getD_drop, getD_drop, reversePairs_eq]
    interval_cases k <;> rfl

theorem decryptBody_eq_encryptBody_reversePairs (data : List Nat) (v : Nat) :
    TDEA_DecryptBody data v = TDEA_EncryptBody (reversePairs data) v := by
  unfold TDEA_DecryptBody TDEA_EncryptBody
  simp only [show List.range 16 = [0, 1, 2, 3, 4, 5, 6, 7, 8, 9, 10, 11, 12, 13, 14, 15] from rfl,
    List.reverse_cons, List.reverse_nil, List.nil_append, List.cons_append, List.foldl_cons,
    List.foldl_nil]
  simp only [feistelRound_reversePairs data _ _ (by decide : 0 < 16),
    feistelRound_reversePairs data _ 1 (by decide),
    feistelRound_reversePairs data _ 2 (by decide),
    feistelRound_reversePairs data _ 3 (by decide),
    feistelRound_reversePairs data _ 4 (by decide),
    feistelRound_reversePairs data _ 5 (by decide),
    feistelRound_reversePairs data _ 6 (by decide),
    feistelRound_reversePairs data _ 7 (by decide),
    feistelRound_reversePairs data _ 8 (by decide),
    feistelRound_reversePairs data _ 9 (by decide),
    feistelRound_reversePairs data _ 10 (by decide),
    feistelRound_reversePairs data _ 11 (by decide),
    feistelRound_reversePairs data _ 12 (by decide),
    feistelRound_reversePairs data _ 13 (by decide),
    feistelRound_reversePairs data _ 14 (by decide),
    feistelRound_reversePairs data _ 15 (by decide)]
/-! ## Bit-selection loops of the key schedule -/

theorem and_two_pow_ne_zero (v s : Nat) : v &&& 2 ^ s ≠ 0 ↔ v.testBit s = true := by
  constructor
  · intro h
    by_contra hb
    apply h
    apply Nat.eq_of_testBit_eq
    intro i
    rw [Nat.testBit_and, Nat.testBit_two_pow, Nat.zero_testBit]
    by_cases hi : s = i
    · subst hi; simp at hb; simp [hb]
    · simp [hi]
  · intro hb h
    have := congrArg (fun x => x.testBit s) h
    simp [Nat.testBit_two_pow, hb] at this

theorem u64_one_shiftLeft (s : Nat) (hs : s < 64) : u64 (1 <<< s) = 2 ^ s := by
  rw [Nat.one_shiftLeft]
  exact u64_of_lt (Nat.pow_lt_pow_right (by decide) hs)

theorem testBit_select_loop (v : Nat) (src : Nat → Nat) (n i : Nat) (hn : n ≤ 64)
    (hsrc : ∀ k, k < n → src k < 64) :
    ((List.range n).foldl
      (fun r k => if v &&& u64 (1 <<< src k) ≠ 0 then r ||| u64 (1 <<< k) else r) 0).testBit i
      = (decide (i < n) && v.testBit (src i)) := by
  induction n with
  | zero => simp
  | succ n ih =>
    have ih2 := ih (by omega) (fun k hk => hsrc k (by omega))
    rw [List.range_succ, List.foldl_append, List.foldl_cons, List.foldl_nil,
      u64_one_shiftLeft _ (hsrc n (by omega)), u64_one_shiftLeft n (by omega)]
    by_cases hc : v &&& 2 ^ src n ≠ 0
    · rw [if_pos hc, Nat.testBit_or, ih2, Nat.testBit_two_pow]
      have hb := (and_two_pow_ne_zero v (src n)).mp hc
      by_cases hin : n = i
      · subst hin; simp [hb]
      · by_cases hlt : i < n
        · have : i < n + 1 := by omega
          simp [hin, hlt, this]
        · have : ¬ i < n + 1 := by omega
          simp [hin, hlt, this]
    · rw [if_neg hc, ih2]
      have hb : v.testBit (src n) = false := by
        by_contra hb
        exact hc ((and_two_pow_ne_zero v (src n)).mpr (by simpa using hb))
      by_cases hin : n = i
      · subst hin; simp [hb]
      · by_cases hlt : i < n
        · have : i < n + 1 := by omega
          simp [hlt, this]
        · have : ¬ i < n + 1 := by omega
          simp [hlt, this]

theorem pc1perm_pos : ∀ k, k < 56 → 64 - pc1perm.getD (55 - k) 0 < 64 := by decide!

theorem pc2perm_pos : ∀ k, k < 48 → 56 - pc2perm.getD (47 - k) 0 < 56 := by decide!

theorem testBit_pc1 (v i : Nat) :
    (pc1 v).testBit i = (decide (i < 56) && v.testBit (64 - pc1perm.getD (55 - i) 0)) :=
  testBit_select_loop v (fun k => 64 - pc1perm.getD (55 - k) 0) 56 i (by decide) pc1perm_pos

theorem testBit_pc2 (v i : Nat) :
    (pc2 v).testBit i = (decide (i < 48) && v.testBit (56 - pc2perm.getD (47 - i) 0)) :=
  testBit_select_loop v (fun k => 56 - pc2perm.getD (47 - k) 0) 48 i (by decide)
    (fun k hk => lt_trans (pc2perm_pos k hk) (by decide))

theorem pc1_eq_permute (v : Nat) : pc1 v = Std.permute Std.PC1 64 v := by
  apply Nat.eq_of_testBit_eq
  intro i
  rw [testBit_pc1, testBit_permute]
  rfl

theorem pc2_eq_permute (v : Nat) : pc2 v = Std.permute Std.PC2 56 (v % 2 ^ 56) := by
  apply Nat.eq_of_testBit_eq
  intro i
  rw [testBit_pc2, testBit_permute, Nat.testBit_mod_two_pow]
  by_cases hi : i < 48
  · have h := pc2perm_pos i hi
    have hlen : pc2perm.length = 48 := rfl
    have htab : Std.PC2 = pc2perm := rfl
    have h47 : 48 - 1 - i = 47 - i := by omega
    simp only [htab, hlen, h47, hi, h, decide_True, Bool.true_and]
  · have hlen : Std.PC2.length = 48 := rfl
    simp [hi, hlen]

theorem pc1_lt (v : Nat) : pc1 v < 2 ^ 56 := by
  rw [pc1_eq_permute]; exact permute_lt Std.PC1 64 v

theorem pc2_lt (v : Nat) : pc2 v < 2 ^ 48 := by
  rw [pc2_eq_permute]; exact permute_lt Std.PC2 56 _
theorem testBit_lit_one (i : Nat) : Nat.testBit 1 i = decide (i = 0) := by
  have h := @Nat.testBit_two_pow 0 i
  simpa [eq_comm] using h

theorem testBit_lit_three (i : Nat) : Nat.testBit 3 i = decide (i < 2) :=
  Nat.testBit_two_pow_sub_one 2 i

theorem testBit_not64 (x i : Nat) :
    (not64 x).testBit i = xor (decide (i < 64)) (x.testBit i) := by
  unfold not64
  rw [Nat.testBit_xor, Nat.testBit_two_pow_sub_one]

theorem rotateKey_one (w : Nat) : rotateKey w 1 =
    ((u64 (w <<< 1) ||| ((u64 (w <<< 1) >>> 28) &&& 1)) &&& not64 (u64 (1 <<< 28))) |||
    ((((u64 (w <<< 1) ||| ((u64 (w <<< 1) >>> 28) &&& 1)) &&& not64 (u64 (1 <<< 28))) >>> 28)
      &&& u64 (1 <<< 28)) := rfl

theorem rotateKey_two (w : Nat) : rotateKey w 2 =
    ((u64 (w <<< 2) ||| ((u64 (w <<< 2) >>> 28) &&& 3)) &&& not64 (u64 (3 <<< 28))) |||
    ((((u64 (w <<< 2) ||| ((u64 (w <<< 2) >>> 28) &&& 3)) &&& not64 (u64 (3 <<< 28))) >>> 28)
      &&& u64 (3 <<< 28)) := rfl

theorem testBit_rotateKey_one (w i : Nat) (hi : i < 56) :
    (rotateKey w 1).testBit i =
      ((Std.rotl28 ((w >>> 28) % 2 ^ 28) 1 <<< 28) ||| Std.rotl28 (w % 2 ^ 28) 1).testBit i := by
  rw [rotateKey_one]
  simp only [Std.rotl28, Nat.testBit_or, Nat.testBit_and, testBit_u64,
    Nat.testBit_shiftLeft, Nat.testBit_shiftRight, Nat.testBit_mod_two_pow, testBit_not64,
    testBit_lit_one, testBit_lit_three]
  interval_cases i <;> simp

theorem testBit_rotateKey_two (w i : Nat) (hi : i < 56) :
    (rotateKey w 2).testBit i =
      ((Std.rotl28 ((w >>> 28) % 2 ^ 28) 2 <<< 28) ||| Std.rotl28 (w % 2 ^ 28) 2).testBit i := by
  rw [rotateKey_two]
  simp only [Std.rotl28, Nat.testBit_or, Nat.testBit_and, testBit_u64,
    Nat.testBit_shiftLeft, Nat.testBit_shiftRight, Nat.testBit_mod_two_pow, testBit_not64,
    testBit_lit_one, testBit_lit_three]
  interval_cases i <;> simp
theorem shiftLeft_lt {a k : Nat} (n : Nat) (h : a < 2 ^ k) : a <<< n < 2 ^ (k + n) := by
  rw [Nat.shiftLeft_eq, Nat.pow_add]
  exact Nat.mul_lt_mul_of_pos_right h (Nat.two_pow_pos n)

theorem rotl28_lt (x s : Nat) : Std.rotl28 x s < 2 ^ 28 := Nat.mod_lt _ (by decide)

theorem concat28_lt {C D : Nat} (hC : C < 2 ^ 28) (hD : D < 2 ^ 28) :
    (C <<< 28) ||| D < 2 ^ 56 :=
  Nat.or_lt_two_pow (shiftLeft_lt 28 hC) (lt_of_lt_of_le hD (by decide))

theorem rotateKey_mod (w s : Nat) (hs : s = 1 ∨ s = 2) :
    rotateKey w s % 2 ^ 56 =
      (Std.rotl28 ((w >>> 28) % 2 ^ 28) s <<< 28) ||| Std.rotl28 (w % 2 ^ 28) s := by
  apply Nat.eq_of_testBit_eq
  intro i
  rw [Nat.testBit_mod_two_pow]
  by_cases hi : i < 56
  · rcases hs with rfl | rfl
    · simp only [hi, decide_True, Bool.true_and]; exact testBit_rotateKey_one w i hi
    · simp only [hi, decide_True, Bool.true_and]; exact testBit_rotateKey_two w i hi
  · rw [testBit_eq_false_of_lt (concat28_lt (rotl28_lt _ _) (rotl28_lt _ _)) (by omega)]
    simp [hi]

theorem split28 (w C D : Nat) (hC : C < 2 ^ 28) (hD : D < 2 ^ 28)
    (h : w % 2 ^ 56 = (C <<< 28) ||| D) : (w >>> 28) % 2 ^ 28 = C ∧ w % 2 ^ 28 = D := by
  have hb : ∀ i, i < 56 → w.testBit i = ((C <<< 28) ||| D).testBit i := by
    intro i hi
    rw [← h, Nat.testBit_mod_two_pow]
    simp [hi]
  constructor
  · apply Nat.eq_of_testBit_eq
    intro i
    rw [Nat.testBit_mod_two_pow, Nat.testBit_shiftRight]
    by_cases hi : i < 28
    · rw [hb _ (by omega), Nat.testBit_or, Nat.testBit_shiftLeft,
        testBit_eq_false_of_lt hD (by omega : 28 ≤ 28 + i)]
      simp [hi]
    · rw [testBit_eq_false_of_lt hC (by omega : 28 ≤ i)]
      simp [hi]
  · apply Nat.eq_of_testBit_eq
    intro i
    rw [Nat.testBit_mod_two_pow]
    by_cases hi : i < 28
    · rw [hb _ (by omega), Nat.testBit_or, Nat.testBit_shiftLeft]
      have : ¬ 28 ≤ i := by omega
      simp [hi, this]
    · rw [testBit_eq_false_of_lt hD (by omega : 28 ≤ i)]
      simp [hi]

theorem join28 (x : Nat) : ((x >>> 28) <<< 28) ||| (x % 2 ^ 28) = x := by
  apply Nat.eq_of_testBit_eq
  intro i
  rw [Nat.testBit_or, Nat.testBit_shiftLeft, Nat.testBit_shiftRight, Nat.testBit_mod_two_pow]
  by_cases hi : i < 28
  · have : ¬ 28 ≤ i := by omega
    simp [hi, this]
  · have h1 : 28 ≤ i := by omega
    simp [hi, h1, Nat.add_sub_cancel' h1]

theorem CD_lt (key n : Nat) : (Std.CD key n).1 < 2 ^ 28 ∧ (Std.CD key n).2 < 2 ^ 28 := by
  cases n with
  | zero =>
    constructor
    · show Std.permute Std.PC1 64 key >>> 28 < 2 ^ 28
      rw [Nat.shiftRight_eq_div_pow]
      have := permute_lt Std.PC1 64 key
      have h56 : Std.PC1.length = 56 := rfl
      rw [h56] at this
      omega
    · exact Nat.mod_lt _ (by decide)
  | succ n => exact ⟨rotl28_lt _ _, rotl28_lt _ _⟩

theorem shifts_eq (n : Nat) (hn : n < 16) : shifts.getD n 0 = Std.leftShifts (n + 1) := by
  interval_cases n <;> rfl

theorem leftShifts_cases (n : Nat) : Std.leftShifts n = 1 ∨ Std.leftShifts n = 2 := by
  unfold Std.leftShifts
  split
  · exact Or.inl rfl
  · exact Or.inr rfl

theorem getD_set (l : List Nat) (i j a : Nat) :
    (l.set i a).getD j 0 = if i = j ∧ i < l.length then a else l.getD j 0 := by
  simp only [List.getD_eq_getElem?_getD, List.getElem?_set]
  by_cases h : i = j
  · subst h
    by_cases h2 : i < l.length
    · simp [h2]
    · have h3 : l.length ≤ i := by omega
      simp [h2, List.getElem?_eq_none h3]
  · simp [h]
theorem pc2_rotateKey (key w n : Nat) (hn : n < 16)
    (hw : w % 2 ^ 56 = ((Std.CD key n).1 <<< 28) ||| (Std.CD key n).2) :
    rotateKey w (shifts.getD n 0) % 2 ^ 56 =
      ((Std.CD key (n + 1)).1 <<< 28) ||| (Std.CD key (n + 1)).2 := by
  obtain ⟨hC, hD⟩ := split28 w _ _ (CD_lt key n).1 (CD_lt key n).2 hw
  rw [shifts_eq n hn, rotateKey_mod _ _ (leftShifts_cases _), hC, hD]
  rfl

theorem genStep_loop (key : Nat) (data : List Nat) (hd : data.length = 32) (n : Nat)
    (hn : n ≤ 16) :
    ((List.range n).foldl genStep (pc1 key, data)).1 % 2 ^ 56 =
        ((Std.CD key n).1 <<< 28) ||| (Std.CD key n).2 ∧
    ((List.range n).foldl genStep (pc1 key, data)).2.length = 32 ∧
    ∀ m, m < n →
      ((List.range n).foldl genStep (pc1 key, data)).2.getD (2 * m) 0
        = packEven (Std.K key (m + 1)) ∧
      ((List.range n).foldl genStep (pc1 key, data)).2.getD (2 * m + 1) 0
        = packOdd (Std.K key (m + 1)) := by
  induction n with
  | zero =>
    refine ⟨?_, hd, fun m hm => absurd hm (Nat.not_lt_zero m)⟩
    show pc1 key % 2 ^ 56 = _
    rw [Nat.mod_eq_of_lt (pc1_lt key), pc1_eq_permute]
    exact (join28 _).symm
  | succ n ih =>
    obtain ⟨hw, hlen, hdata⟩ := ih (by omega)
    rw [List.range_succ, List.foldl_append, List.foldl_cons, List.foldl_nil]
    generalize (List.range n).foldl genStep (pc1 key, data) = st at hw hlen hdata
    have hw2 := pc2_rotateKey key st.1 n (by omega) hw
    have hK : pc2 (rotateKey st.1 (shifts.getD n 0)) = Std.K key (n + 1) := by
      rw [pc2_eq_permute, hw2]; rfl
    refine ⟨hw2, ?_, ?_⟩
    · simp [genStep, hlen]
    · intro m hm
      simp only [genStep, hK, getD_set, List.length_set, hlen]
      by_cases hmn : m = n
      · subst hmn
        have h1 : ¬ (2 * m + 1 = 2 * m ∧ 2 * m + 1 < 32) := by omega
        have h2 : 2 * m = 2 * m ∧ 2 * m < 32 := by omega
        have h3 : 2 * m + 1 = 2 * m + 1 ∧ 2 * m + 1 < 32 := by omega
        have h5 : ¬ (2 * m + 1 = 2 * m) := by omega
        have h6 : 2 * m < 32 := by omega
        have h7 : 2 * m + 1 < 32 := by omega
        simp [h5, h6, h7]
      · have h1 : ¬ (2 * n + 1 = 2 * m ∧ 2 * n + 1 < 32) := by omega
        have h2 : ¬ (2 * n = 2 * m ∧ 2 * n < 32) := by omega
        have h3 : ¬ (2 * n + 1 = 2 * m + 1 ∧ 2 * n + 1 < 32) := by omega
        have h4 : ¬ (2 * n = 2 * m + 1 ∧ 2 * n < 32) := by omega
        simp only [h1, h2, h3, h4, if_false]
        exact hdata m (by omega)

theorem genDESKey_getD (key data : List Nat) (hd : data.length = 32) (m : Nat) (hm : m < 16) :
    (TDEA_GenDESKey data key).getD (2 * m) 0 = packEven (Std.K (get64 key) (m + 1)) ∧
    (TDEA_GenDESKey data key).getD (2 * m + 1) 0 = packOdd (Std.K (get64 key) (m + 1)) :=
  (genStep_loop (get64 key) data hd 16 (le_refl 16)).2.2 m hm

theorem and_63 (x : Nat) : x &&& 0x3f = x % 64 := Nat.and_pow_two_sub_one_eq_mod x 6

theorem packEven_eq (r : Nat) : packEven r =
    (Std.sixBits r 1 <<< 24) ||| (Std.sixBits r 3 <<< 16) ||| (Std.sixBits r 5 <<< 8) |||
      Std.sixBits r 7 := by
  unfold packEven Std.sixBits
  simp only [and_63]
  have h : ∀ x : Nat, x % 64 < 2 ^ 6 := fun x => Nat.mod_lt _ (by decide)
  rw [u64_of_lt (lt_of_lt_of_le (shiftLeft_lt 24 (h _)) (by decide)),
    u64_of_lt (lt_of_lt_of_le (shiftLeft_lt 16 (h _)) (by decide)),
    u64_of_lt (lt_of_lt_of_le (shiftLeft_lt 8 (h _)) (by decide))]
  apply u32_of_lt
  refine Nat.or_lt_two_pow (Nat.or_lt_two_pow (Nat.or_lt_two_pow ?_ ?_) ?_) ?_
  · exact lt_of_lt_of_le (shiftLeft_lt 24 (h _)) (by decide)
  · exact lt_of_lt_of_le (shiftLeft_lt 16 (h _)) (by decide)
  · exact lt_of_lt_of_le (shiftLeft_lt 8 (h _)) (by decide)
  · exact lt_of_lt_of_le (h _) (by decide)

theorem packOdd_eq (r : Nat) : packOdd r =
    (Std.sixBits r 2 <<< 24) ||| (Std.sixBits r 4 <<< 16) ||| (Std.sixBits r 6 <<< 8) |||
      Std.sixBits r 8 := by
  unfold packOdd Std.sixBits
  simp only [and_63]
  have h : ∀ x : Nat, x % 64 < 2 ^ 6 := fun x => Nat.mod_lt _ (by decide)
  rw [u64_of_lt (lt_of_lt_of_le (shiftLeft_lt 24 (h _)) (by decide)),
    u64_of_lt (lt_of_lt_of_le (shiftLeft_lt 16 (h _)) (by decide)),
    u64_of_lt (lt_of_lt_of_le (shiftLeft_lt 8 (h _)) (by decide))]
  apply u32_of_lt
  refine Nat.or_lt_two_pow (Nat.or_lt_two_pow (Nat.or_lt_two_pow ?_ ?_) ?_) ?_
  · exact lt_of_lt_of_le (shiftLeft_lt 24 (h _)) (by decide)
  · exact lt_of_lt_of_le (shiftLeft_lt 16 (h _)) (by decide)
  · exact lt_of_lt_of_le (shiftLeft_lt 8 (h _)) (by decide)
  · exact lt_of_lt_of_le (h _) (by decide)
theorem testBit_mod64 (x i : Nat) : (x % 64).testBit i = (decide (i < 6) && x.testBit i) :=
  Nat.testBit_mod_two_pow x 6 i

theorem mod64_ext (x y : Nat) (h : ∀ i, i < 6 → x.testBit i = y.testBit i) :
    x % 64 = y % 64 := by
  apply Nat.eq_of_testBit_eq
  intro i
  rw [testBit_mod64, testBit_mod64]
  by_cases hi : i < 6
  · rw [h i hi]
  · simp [hi]

theorem permute_or (t : List Nat) (w a b : Nat) :
    Std.permute t w (a ||| b) = Std.permute t w a ||| Std.permute t w b := by
  apply Nat.eq_of_testBit_eq
  intro i
  simp only [testBit_permute, Nat.testBit_or, Bool.and_or_distrib_left]

theorem spAt_eq_genSP : ∀ i, i < 8 → ∀ j, j < 64 → spAt i j = Std.genSP i j := by decide!

/-! ## The table indices of `f` are the blocks `B_1, ..., B_8` of `K xor E(R)` -/

theorem index_one (R K : Nat) (hR : R < 2 ^ 32) :
    ((((((R >>> 31) ||| u32 (R <<< 1)) >>> 4) ||| u32 (((R >>> 31) ||| u32 (R <<< 1)) <<< 28)) ^^^ packEven K) >>> 24) &&& 0x3f =
      Std.sixBits (K ^^^ Std.permute Std.E 32 R) 1 := by
  have hR2 : ∀ j, 32 ≤ j → R.testBit j = false := fun j hj => testBit_eq_false_of_lt hR hj
  rw [and_63, packEven_eq]
  unfold Std.sixBits
  apply mod64_ext
  intro i hi
  simp only [Nat.testBit_shiftRight, Nat.testBit_xor, Nat.testBit_or, testBit_u32,
    Nat.testBit_shiftLeft, testBit_mod64, testBit_permute]
  interval_cases i <;> simp [-Nat.testBit_zero, hR2, Std.E] <;> exact Bool.xor_comm _ _

theorem index_two (R K : Nat) (hR : R < 2 ^ 32) :
    ((((R >>> 31) ||| u32 (R <<< 1)) ^^^ packOdd K) >>> 24) &&& 0x3f =
      Std.sixBits (K ^^^ Std.permute Std.E 32 R) 2 := by
  have hR2 : ∀ j, 32 ≤ j → R.testBit j = false := fun j hj => testBit_eq_false_of_lt hR hj
  rw [and_63, packOdd_eq]
  unfold Std.sixBits
  apply mod64_ext
  intro i hi
  simp only [Nat.testBit_shiftRight, Nat.testBit_xor, Nat.testBit_or, testBit_u32,
    Nat.testBit_shiftLeft, testBit_mod64, testBit_permute]
  interval_cases i <;> simp [-Nat.testBit_zero, hR2, Std.E] <;> exact Bool.xor_comm _ _

theorem index_three (R K : Nat) (hR : R < 2 ^ 32) :
    ((((((R >>> 31) ||| u32 (R <<< 1)) >>> 4) ||| u32 (((R >>> 31) ||| u32 (R <<< 1)) <<< 28)) ^^^ packEven K) >>> 16) &&& 0x3f =
      Std.sixBits (K ^^^ Std.permute Std.E 32 R) 3 := by
  have hR2 : ∀ j, 32 ≤ j → R.testBit j = false := fun j hj => testBit_eq_false_of_lt hR hj
  rw [and_63, packEven_eq]
  unfold Std.sixBits
  apply mod64_ext
  intro i hi
  simp only [Nat.testBit_shiftRight, Nat.testBit_xor, Nat.testBit_or, testBit_u32,
    Nat.testBit_shiftLeft, testBit_mod64, testBit_permute]
  interval_cases i <;> simp [-Nat.testBit_zero, hR2, Std.E] <;> exact Bool.xor_comm _ _

theorem index_four (R K : Nat) (hR : R < 2 ^ 32) :
    ((((R >>> 31) ||| u32 (R <<< 1)) ^^^ packOdd K) >>> 16) &&& 0x3f =
      Std.sixBits (K ^^^ Std.permute Std.E 32 R) 4 := by
  have hR2 : ∀ j, 32 ≤ j → R.testBit j = false := fun j hj => testBit_eq_false_of_lt hR hj
  rw [and_63, packOdd_eq]
  unfold Std.sixBits
  apply mod64_ext
  intro i hi
  simp only [Nat.testBit_shiftRight, Nat.testBit_xor, Nat.testBit_or, testBit_u32,
    Nat.testBit_shiftLeft, testBit_mod64, testBit_permute]
  interval_cases i <;> simp [-Nat.testBit_zero, hR2, Std.E] <;> exact Bool.xor_comm _ _

theorem index_five (R K : Nat) (hR : R < 2 ^ 32) :
    ((((((R >>> 31) ||| u32 (R <<< 1)) >>> 4) ||| u32 (((R >>> 31) ||| u32 (R <<< 1)) <<< 28)) ^^^ packEven K) >>> 8) &&& 0x3f =
      Std.sixBits (K ^^^ Std.permute Std.E 32 R) 5 := by
  have hR2 : ∀ j, 32 ≤ j → R.testBit j = false := fun j hj => testBit_eq_false_of_lt hR hj
  rw [and_63, packEven_eq]
  unfold Std.sixBits
  apply mod64_ext
  intro i hi
  simp only [Nat.testBit_shiftRight, Nat.testBit_xor, Nat.testBit_or, testBit_u32,
    Nat.testBit_shiftLeft, testBit_mod64, testBit_permute]
  interval_cases i <;> simp [-Nat.testBit_zero, hR2, Std.E] <;> exact Bool.xor_comm _ _

theorem index_six (R K : Nat) (hR : R < 2 ^ 32) :
    ((((R >>> 31) ||| u32 (R <<< 1)) ^^^ packOdd K) >>> 8) &&& 0x3f =
      Std.sixBits (K ^^^ Std.permute Std.E 32 R) 6 := by
  have hR2 : ∀ j, 32 ≤ j → R.testBit j = false := fun j hj => testBit_eq_false_of_lt hR hj
  rw [and_63, packOdd_eq]
  unfold Std.sixBits
  apply mod64_ext
  intro i hi
  simp only [Nat.testBit_shiftRight, Nat.testBit_xor, Nat.testBit_or, testBit_u32,
    Nat.testBit_shiftLeft, testBit_mod64, testBit_permute]
  interval_cases i <;> simp [-Nat.testBit_zero, hR2, Std.E] <;> exact Bool.xor_comm _ _

theorem index_seven (R K : Nat) (hR : R < 2 ^ 32) :
    (((((R >>> 31) ||| u32 (R <<< 1)) >>> 4) ||| u32 (((R >>> 31) ||| u32 (R <<< 1)) <<< 28)) ^^^ packEven K) &&& 0x3f =
      Std.sixBits (K ^^^ Std.permute Std.E 32 R) 7 := by
  have hR2 : ∀ j, 32 ≤ j → R.testBit j = false := fun j hj => testBit_eq_false_of_lt hR hj
  rw [and_63, packEven_eq]
  unfold Std.sixBits
  apply mod64_ext
  intro i hi
  simp only [Nat.testBit_shiftRight, Nat.testBit_xor, Nat.testBit_or, testBit_u32,
    Nat.testBit_shiftLeft, testBit_mod64, testBit_permute]
  interval_cases i <;> simp [-Nat.testBit_zero, hR2, Std.E] <;> exact Bool.xor_comm _ _

theorem index_eight (R K : Nat) (hR : R < 2 ^ 32) :
    (((R >>> 31) ||| u32 (R <<< 1)) ^^^ packOdd K) &&& 0x3f =
      Std.sixBits (K ^^^ Std.permute Std.E 32 R) 8 := by
  have hR2 : ∀ j, 32 ≤ j → R.testBit j = false := fun j hj => testBit_eq_false_of_lt hR hj
  rw [and_63, packOdd_eq]
  unfold Std.sixBits
  apply mod64_ext
  intro i hi
  simp only [Nat.testBit_shiftRight, Nat.testBit_xor, Nat.testBit_or, testBit_u32,
    Nat.testBit_shiftLeft, testBit_mod64, testBit_permute]
  interval_cases i <;> simp [-Nat.testBit_zero, hR2, Std.E] <;> exact Bool.xor_comm _ _

theorem sixBits_lt (x n : Nat) : Std.sixBits x n < 64 := Nat.mod_lt _ (by decide)

theorem f_eq_cipherF (R K : Nat) (keypair : List Nat) (hR : R < 2 ^ 32)
    (h0 : keypair.getD 0 0 = packEven K) (h1 : keypair.getD 1 0 = packOdd K) :
    f R keypair = Std.cipherF R K := by
  unfold f
  simp only [h0, h1]
  rw [index_one R K hR, index_two R K hR, index_three R K hR, index_four R K hR,
    index_five R K hR, index_six R K hR, index_seven R K hR, index_eight R K hR]
  rw [spAt_eq_genSP 0 (by decide) _ (sixBits_lt _ _), spAt_eq_genSP 1 (by decide) _ (sixBits_lt _ _),
    spAt_eq_genSP 2 (by decide) _ (sixBits_lt _ _), spAt_eq_genSP 3 (by decide) _ (sixBits_lt _ _),
    spAt_eq_genSP 4 (by decide) _ (sixBits_lt _ _), spAt_eq_genSP 5 (by decide) _ (sixBits_lt _ _),
    spAt_eq_genSP 6 (by decide) _ (sixBits_lt _ _), spAt_eq_genSP 7 (by decide) _ (sixBits_lt _ _)]
  unfold Std.cipherF Std.substitute Std.genSP
  simp only [permute_or]
  rfl
/-! ## The whole cipher -/

theorem foldl_feistelRound_eq_rounds (data : List Nat) (ks : Nat → Nat) (L0 R0 : Nat)
    (hL : L0 < 2 ^ 32) (hR : R0 < 2 ^ 32)
    (hdata : ∀ m, m < 16 → data.getD (2 * m) 0 = packEven (ks (m + 1)) ∧
      data.getD (2 * m + 1) 0 = packOdd (ks (m + 1)))
    (n : Nat) (hn : n ≤ 16) :
    (List.range n).foldl (feistelRound data) (L0, R0) = Std.rounds ks L0 R0 n := by
  induction n with
  | zero => rfl
  | succ n ih =>
    have hb := foldl_feistelRound_lt data (List.range n) (L0, R0) ⟨hL, hR⟩
    rw [List.range_succ, List.foldl_append, List.foldl_cons, List.foldl_nil]
    rw [ih (by omega)] at hb ⊢
    unfold feistelRound
    rw [f_eq_cipherF _ (ks (n + 1)) _ hb.2
      (by rw [getD_drop]; exact (hdata n (by omega)).1)
      (by rw [getD_drop]; exact (hdata n (by omega)).2)]
    rfl

theorem shiftRight32_lt {x : Nat} (hx : x < 2 ^ 64) : x >>> 32 < 2 ^ 32 := by
  rw [Nat.shiftRight_eq_div_pow]
  omega

theorem des_encrypt_eq_textbook (key block : Nat) (hk : key < 2 ^ 64) :
    DES_Encrypt key block = Std.encrypt key block := by
  unfold DES_Encrypt Std.encrypt TDEA_EncryptBody
  simp only
  rw [ipfwd_eq_permute, iprev_eq_permute,
    u32_of_lt (shiftRight32_lt (permute_IP_lt block))]
  have hx : u32 (Std.permute Std.IP 64 block) = Std.permute Std.IP 64 block % 2 ^ 32 := rfl
  rw [hx]
  have hdata : ∀ m, m < 16 →
      (TDEA_GenDESKey freshKey (put64 key (List.replicate 8 0))).getD (2 * m) 0
        = packEven (Std.K key (m + 1)) ∧
      (TDEA_GenDESKey freshKey (put64 key (List.replicate 8 0))).getD (2 * m + 1) 0
        = packOdd (Std.K key (m + 1)) := by
    intro m hm
    have h := genDESKey_getD (put64 key (List.replicate 8 0)) freshKey rfl m hm
    rwa [get64_put64 key (List.replicate 8 0) hk rfl] at h
  have hb := foldl_feistelRound_lt (TDEA_GenDESKey freshKey (put64 key (List.replicate 8 0)))
    (List.range 16) (Std.permute Std.IP 64 block >>> 32, Std.permute Std.IP 64 block % 2 ^ 32)
    ⟨shiftRight32_lt (permute_IP_lt block), Nat.mod_lt _ (by decide)⟩
  rw [foldl_feistelRound_eq_rounds _ (Std.K key) _ _ (shiftRight32_lt (permute_IP_lt block))
    (Nat.mod_lt _ (by decide)) hdata 16 (le_refl 16)] at hb ⊢
  rw [u64_of_lt (shiftLeft_lt 32 hb.2)]

/-! ## The claims of the specification -/

/-- C1. Round trip: for every 64-bit key and every 64-bit block, decrypting the encryption of
the block under the same key gives the block back. -/
theorem des_round_trip (key block : Nat) (_hk : key < 2 ^ 64) (hb : block < 2 ^ 64) :
    DES_Decrypt key (DES_Encrypt key block) = block :=
  des_decrypt_encrypt key block hb

theorem des_round_trip_witness :
    (0x133457799BBCDFF1 < 2 ^ 64 ∧ 0x0123456789ABCDEF < 2 ^ 64) ∧
    DES_Decrypt 0x133457799BBCDFF1 (DES_Encrypt 0x133457799BBCDFF1 0x0123456789ABCDEF)
      = 0x0123456789ABCDEF :=
  ⟨⟨by decide, by decide⟩,
    des_round_trip 0x133457799BBCDFF1 0x0123456789ABCDEF (by decide) (by decide)⟩

/-- C2. Refinement: for every 64-bit key and every 64-bit block, `DES_Encrypt` computes the
textbook DES encryption `Std.encrypt`, which is written with the literal tables of the
standard (IP, sixteen iterations with E, S, P and the PC-1 / shift / PC-2 key schedule,
preoutput `R_16 L_16`, inverse IP). -/
theorem des_encrypt_refines_textbook (key block : Nat) (hk : key < 2 ^ 64)
    (_hb : block < 2 ^ 64) : DES_Encrypt key block = Std.encrypt key block :=
  des_encrypt_eq_textbook key block hk

theorem des_encrypt_refines_textbook_witness :
    (0x0123456789ABCDEF < 2 ^ 64 ∧ 0x4E6F772069732074 < 2 ^ 64) ∧
    DES_Encrypt 0x0123456789ABCDEF 0x4E6F772069732074
      = Std.encrypt 0x0123456789ABCDEF 0x4E6F772069732074 :=
  ⟨⟨by decide, by decide⟩,
    des_encrypt_refines_textbook 0x0123456789ABCDEF 0x4E6F772069732074 (by decide) (by decide)⟩

/-- C3. Known answer: key `0x133457799BBCDFF1` and plaintext `0x0123456789ABCDEF` encrypt to
`0x85E813540F0AB405`. -/
theorem des_known_answer :
    DES_Encrypt 0x133457799BBCDFF1 0x0123456789ABCDEF = 0x85E813540F0AB405 := by
  decide!

/-- C4. All-zero key and block: `DES_Encrypt 0 0` is `0x8CA64DE9C1B123A7`, which is also the
value of the textbook DES there. -/
theorem des_all_zero :
    DES_Encrypt 0x0000000000000000 0x0000000000000000 = 0x8CA64DE9C1B123A7 ∧
    Std.encrypt 0x0000000000000000 0x0000000000000000 = 0x8CA64DE9C1B123A7 := by
  decide!

/-- C5. Permutation bijectivity: on 64-bit values `ipfwd` and `iprev` are mutual inverses. -/
theorem ip_mutual_inverse (B : Nat) (hB : B < 2 ^ 64) :
    iprev (ipfwd B) = B ∧ ipfwd (iprev B) = B :=
  ⟨iprev_ipfwd B hB, ipfwd_iprev B hB⟩

theorem ip_mutual_inverse_witness :
    0x0123456789ABCDEF < 2 ^ 64 ∧
    (iprev (ipfwd 0x0123456789ABCDEF) = 0x0123456789ABCDEF ∧
     ipfwd (iprev 0x0123456789ABCDEF) = 0x0123456789ABCDEF) :=
  ⟨by decide, ip_mutual_inverse 0x0123456789ABCDEF (by decide)⟩

/-- C6. The swap network is the standard initial permutation: for every 64-bit `v` and every
position `i` in `1..64` (position 1 the most significant bit), bit `i` of `ipfwd v` is bit
`IP[i]` of `v`, where `IP` is the standard table `Std.IP`. -/
theorem ipfwd_is_standard_IP (v i : Nat) (_hv : v < 2 ^ 64) (h1 : 1 ≤ i) (h64 : i ≤ 64) :
    Std.bit 64 (ipfwd v) i = Std.bit 64 v (Std.IP.getD (i - 1) 0) := by
  unfold Std.bit
  rw [testBit_ipfwd v (64 - i) (by omega)]
  have h : 63 - (64 - i) = i - 1 := by omega
  rw [h]

theorem ipfwd_is_standard_IP_witness :
    (0x0123456789ABCDEF < 2 ^ 64 ∧ 1 ≤ 1 ∧ 1 ≤ 64) ∧
    Std.bit 64 (ipfwd 0x0123456789ABCDEF) 1
      = Std.bit 64 0x0123456789ABCDEF (Std.IP.getD (1 - 1) 0) :=
  ⟨⟨by decide, by decide, by decide⟩,
    ipfwd_is_standard_IP 0x0123456789ABCDEF 1 (by decide) (by decide) (by decide)⟩

/-- C7. Table generator equivalence: for every table `i` in `0..7` and every 6-bit input `j`,
the literal entry `sp[i][j]` is the entry generated from the standard S-boxes and the standard
permutation P (`Std.genSP`: S-box `i + 1` at the row given by bits 5 and 0 of `j` and the
column given by bits 4..1, placed in nibble `i`, then permuted by P). -/
theorem sp_table_generated (i j : Nat) (hi : i < 8) (hj : j < 64) :
    spAt i j = Std.genSP i j :=
  spAt_eq_genSP i hi j hj

theorem sp_table_generated_witness :
    (3 < 8 ∧ 45 < 64) ∧ spAt 3 45 = Std.genSP 3 45 :=
  ⟨⟨by decide, by decide⟩, sp_table_generated 3 45 (by decide) (by decide)⟩

/-- C8. Key schedule: for every 8-byte key and every `n` in `1..16`, the words
`data[2(n-1)]` and `data[2(n-1)+1]` written by `TDEA_GenDESKey` hold the standard subkey
`K_n = PC-2(C_n D_n)` in packed form, `g1<<24 | g3<<16 | g5<<8 | g7` and
`g2<<24 | g4<<16 | g6<<8 | g8`, where `g1..g8` are the 6-bit groups of `K_n`, `g1` leftmost. -/
theorem genDESKey_standard_schedule (key data : List Nat) (n : Nat)
    (_hlen : key.length = 8) (_hbytes : ∀ b ∈ key, b < 2 ^ 8) (hd : data.length = 32)
    (h1 : 1 ≤ n) (h16 : n ≤ 16) :
    (TDEA_GenDESKey data key).getD (2 * (n - 1)) 0 =
      ((Std.sixBits (Std.K (get64 key) n) 1 <<< 24) |||
       (Std.sixBits (Std.K (get64 key) n) 3 <<< 16) |||
       (Std.sixBits (Std.K (get64 key) n) 5 <<< 8) |||
        Std.sixBits (Std.K (get64 key) n) 7) ∧
    (TDEA_GenDESKey data key).getD (2 * (n - 1) + 1) 0 =
      ((Std.sixBits (Std.K (get64 key) n) 2 <<< 24) |||
       (Std.sixBits (Std.K (get64 key) n) 4 <<< 16) |||
       (Std.sixBits (Std.K (get64 key) n) 6 <<< 8) |||
        Std.sixBits (Std.K (get64 key) n) 8) := by
  have h := genDESKey_getD key data hd (n - 1) (by omega)
  have hn : n - 1 + 1 = n := by omega
  rw [hn, packEven_eq, packOdd_eq] at h
  exact h

theorem genDESKey_standard_schedule_witness :
    ([0x13, 0x34, 0x57, 0x79, 0x9B, 0xBC, 0xDF, 0xF1].length = 8 ∧
     (∀ b ∈ [0x13, 0x34, 0x57, 0x79, 0x9B, 0xBC, 0xDF, 0xF1], b < 2 ^ 8) ∧
     (List.replicate 32 7).length = 32 ∧ 1 ≤ 16 ∧ 16 ≤ 16) ∧
    ((TDEA_GenDESKey (List.replicate 32 7)
        [0x13, 0x34, 0x57, 0x79, 0x9B, 0xBC, 0xDF, 0xF1]).getD (2 * (16 - 1)) 0 =
      ((Std.sixBits (Std.K (get64 [0x13, 0x34, 0x57, 0x79, 0x9B, 0xBC, 0xDF, 0xF1]) 16) 1 <<< 24) |||
       (Std.sixBits (Std.K (get64 [0x13, 0x34, 0x57, 0x79, 0x9B, 0xBC, 0xDF, 0xF1]) 16) 3 <<< 16) |||
       (Std.sixBits (Std.K (get64 [0x13, 0x34, 0x57, 0x79, 0x9B, 0xBC, 0xDF, 0xF1]) 16) 5 <<< 8) |||
        Std.sixBits (Std.K (get64 [0x13, 0x34, 0x57, 0x79, 0x9B, 0xBC, 0xDF, 0xF1]) 16) 7) ∧
    (TDEA_GenDESKey (List.replicate 32 7)
        [0x13, 0x34, 0x57, 0x79, 0x9B, 0xBC, 0xDF, 0xF1]).getD (2 * (16 - 1) + 1) 0 =
      ((Std.sixBits (Std.K (get64 [0x13, 0x34, 0x57, 0x79, 0x9B, 0xBC, 0xDF, 0xF1]) 16) 2 <<< 24) |||
       (Std.sixBits (Std.K (get64 [0x13, 0x34, 0x57, 0x79, 0x9B, 0xBC, 0xDF, 0xF1]) 16) 4 <<< 16) |||
       (Std.sixBits (Std.K (get64 [0x13, 0x34, 0x57, 0x79, 0x9B, 0xBC, 0xDF, 0xF1]) 16) 6 <<< 8) |||
        Std.sixBits (Std.K (get64 [0x13, 0x34, 0x57, 0x79, 0x9B, 0xBC, 0xDF, 0xF1]) 16) 8)) :=
  ⟨⟨by decide, by decide, by decide, by decide, by decide⟩,
    genDESKey_standard_schedule [0x13, 0x34, 0x57, 0x79, 0x9B, 0xBC, 0xDF, 0xF1]
      (List.replicate 32 7) 16 (by decide) (by decide) (by decide) (by decide) (by decide)⟩

/-- C9. Decryption is encryption with the subkey pairs in reverse order: for every schedule
of 16 pairs, `TDEA_DecryptBody` is `TDEA_EncryptBody` on the schedule that holds pair `15 - k`
at pair position `k`; `DES_Decrypt` is `DES_Encrypt` with the derived schedule so reversed. -/
theorem decrypt_is_encrypt_reversed (data : List Nat) (v key block : Nat)
    (_hd : data.length = 32) :
    TDEA_DecryptBody data v = TDEA_EncryptBody (reversePairs data) v ∧
    (∀ k, k < 16 → (reversePairs data).getD (2 * k) 0 = data.getD (2 * (15 - k)) 0 ∧
      (reversePairs data).getD (2 * k + 1) 0 = data.getD (2 * (15 - k) + 1) 0) ∧
    DES_Decrypt key block =
      iprev (TDEA_EncryptBody
        (reversePairs (TDEA_GenDESKey freshKey (put64 key (List.replicate 8 0))))
        (ipfwd block)) := by
  refine ⟨decryptBody_eq_encryptBody_reversePairs data v, ?_, ?_⟩
  · intro k hk
    rw [reversePairs_eq]
    interval_cases k <;> exact ⟨rfl, rfl⟩
  · unfold DES_Decrypt
    simp only
    rw [decryptBody_eq_encryptBody_reversePairs]

theorem decrypt_is_encrypt_reversed_witness :
    (List.range 32).length = 32 ∧
    TDEA_DecryptBody (List.range 32) 0x0123456789ABCDEF
      = TDEA_EncryptBody (reversePairs (List.range 32)) 0x0123456789ABCDEF :=
  ⟨by decide,
    (decrypt_is_encrypt_reversed (List.range 32) 0x0123456789ABCDEF 0x133457799BBCDFF1
      0x85E813540F0AB405 (by decide)).1⟩

/-- C10. The byte conversions are big-endian and exact inverses: for a 64-bit `v`, `get64`
of the eight bytes stored by `put64` is `v`, and byte 0 holds the eight most significant
bits of `v`; for eight bytes `b`, `put64 (get64 b)` stores `b` back. -/
theorem byte_io_inverse (v : Nat) (b p : List Nat) (hv : v < 2 ^ 64) (hp : p.length = 8)
    (hb : b.length = 8) (hbytes : ∀ x ∈ b, x < 2 ^ 8) :
    get64 (put64 v p) = v ∧ (put64 v p).getD 0 0 = v >>> 56 ∧ put64 (get64 b) p = b :=
  ⟨get64_put64 v p hv hp, put64_byte0 v p hv hp, put64_get64 b p hb hbytes hp⟩

theorem byte_io_inverse_witness :
    get64 (put64 0x0123456789ABCDEF [9, 9, 9, 9, 9, 9, 9, 9]) = 0x0123456789ABCDEF ∧
    (put64 0x0123456789ABCDEF [9, 9, 9, 9, 9, 9, 9, 9]).getD 0 0 = 0x0123456789ABCDEF >>> 56 ∧
    put64 (get64 [1, 0x23, 0x45, 0x67, 0x89, 0xAB, 0xCD, 0xEF]) [9, 9, 9, 9, 9, 9, 9, 9]
      = [1, 0x23, 0x45, 0x67, 0x89, 0xAB, 0xCD, 0xEF] :=
  byte_io_inverse 0x0123456789ABCDEF [1, 0x23, 0x45, 0x67, 0x89, 0xAB, 0xCD, 0xEF]
    [9, 9, 9, 9, 9, 9, 9, 9] (by decide) (by decide) (by decide) (by decide)
/-! ## Parity bits of the key -/

theorem testBit_parityMask (i : Nat) :
    parityMask.testBit i = (decide (i < 64) && decide (i % 8 = 0)) := by
  by_cases hi : i < 64
  · interval_cases i <;> decide
  · rw [testBit_eq_false_of_lt (n := 64) (x := parityMask) (by decide) (by omega)]
    simp [hi]

theorem testBit_of_parity_only (p : Nat) (hp : p &&& not64 parityMask = 0) (s : Nat)
    (hs : s < 64) (h8 : s % 8 ≠ 0) : p.testBit s = false := by
  have h := congrArg (fun x => x.testBit s) hp
  simp only [Nat.testBit_and, testBit_not64, testBit_parityMask, Nat.zero_testBit] at h
  simpa [hs, h8] using h

theorem pc1_xor_parity (K p : Nat) (hp : p &&& not64 parityMask = 0) :
    pc1 (K ^^^ p) = pc1 K := by
  have hbit := testBit_of_parity_only p hp
  apply Nat.eq_of_testBit_eq
  intro i
  rw [testBit_pc1, testBit_pc1]
  by_cases hi : i < 56
  · interval_cases i <;> simp [-Nat.testBit_zero, pc1perm, hbit]
  · simp [hi]

theorem genDESKey_xor_parity (K p : Nat) (hK : K < 2 ^ 64) (hp64 : p < 2 ^ 64)
    (hp : p &&& not64 parityMask = 0) (data : List Nat) :
    TDEA_GenDESKey data (put64 (K ^^^ p) (List.replicate 8 0)) =
      TDEA_GenDESKey data (put64 K (List.replicate 8 0)) := by
  unfold TDEA_GenDESKey
  rw [get64_put64 (K ^^^ p) (List.replicate 8 0) (Nat.xor_lt_two_pow hK hp64) rfl,
    get64_put64 K (List.replicate 8 0) hK rfl, pc1_xor_parity K p hp]

theorem pc1_reads_no_parity_bit : ∀ k, k < 56 → (64 - pc1perm.getD (55 - k) 0) % 8 ≠ 0 := by
  decide!

/-- C11. The eight parity bits of the key are dropped and never validated: flipping any of
the least significant bits of the key bytes (a mask `p` with `p & ~0x0101010101010101 = 0`)
changes neither `DES_Encrypt` nor `DES_Decrypt`, and `pc1` reads none of these positions. -/
theorem parity_bits_ignored (K B p : Nat) (hK : K < 2 ^ 64) (_hB : B < 2 ^ 64)
    (hp64 : p < 2 ^ 64) (hp : p &&& not64 parityMask = 0) :
    DES_Encrypt (K ^^^ p) B = DES_Encrypt K B ∧
    DES_Decrypt (K ^^^ p) B = DES_Decrypt K B ∧
    ∀ k, k < 56 → parityMask.testBit (64 - pc1perm.getD (55 - k) 0) = false := by
  refine ⟨?_, ?_, ?_⟩
  · unfold DES_Encrypt
    simp only
    rw [genDESKey_xor_parity K p hK hp64 hp]
  · unfold DES_Decrypt
    simp only
    rw [genDESKey_xor_parity K p hK hp64 hp]
  · intro k hk
    rw [testBit_parityMask]
    rw [decide_eq_false (pc1_reads_no_parity_bit k hk), Bool.and_false]

theorem parity_bits_ignored_witness :
    (0x133457799BBCDFF1 < 2 ^ 64 ∧ 0x0123456789ABCDEF < 2 ^ 64 ∧ 0x0100010000010101 < 2 ^ 64 ∧
      0x0100010000010101 &&& not64 parityMask = 0) ∧
    DES_Encrypt (0x133457799BBCDFF1 ^^^ 0x0100010000010101) 0x0123456789ABCDEF
      = DES_Encrypt 0x133457799BBCDFF1 0x0123456789ABCDEF :=
  ⟨⟨by decide, by decide, by decide, by decide⟩,
    (parity_bits_ignored 0x133457799BBCDFF1 0x0123456789ABCDEF 0x0100010000010101
      (by decide) (by decide) (by decide) (by decide)).1⟩
/-! ## The round function in the words of the specification -/

theorem or_u32 (a b : Nat) (ha : a < 2 ^ 32) : a ||| u32 b = (b ||| a) % 2 ^ 32 := by
  apply Nat.eq_of_testBit_eq
  intro i
  rw [Nat.testBit_or, testBit_u32, Nat.testBit_mod_two_pow, Nat.testBit_or]
  by_cases hi : i < 32
  · simp [hi, Bool.or_comm]
  · rw [testBit_eq_false_of_lt ha (by omega : 32 ≤ i)]
    simp [hi]

theorem shiftRight_lt_of_lt {x n : Nat} (k : Nat) (h : x < 2 ^ n) : x >>> k < 2 ^ n :=
  lt_of_le_of_lt (by rw [Nat.shiftRight_eq_div_pow]; exact Nat.div_le_self _ _) h

theorem rot1_eq (R : Nat) (hR : R < 2 ^ 32) : (R >>> 31) ||| u32 (R <<< 1) = rotl32 R 1 :=
  or_u32 _ _ (shiftRight_lt_of_lt 31 hR)

theorem rot4_eq (r : Nat) (hr : r < 2 ^ 32) : (r >>> 4) ||| u32 (r <<< 28) = rotr32 r 4 := by
  rw [or_u32 _ _ (shiftRight_lt_of_lt 4 hr)]
  unfold rotr32
  rw [Nat.or_comm]

theorem rotl32_lt (x n : Nat) : rotl32 x n < 2 ^ 32 := Nat.mod_lt _ (by decide)

theorem lowSix_byteOf (x k : Nat) : lowSix (byteOf x k) = (x >>> (8 * k)) &&& 0x3f := by
  unfold lowSix byteOf
  rw [and_63]
  exact Nat.mod_mod_of_dvd _ (by decide)

theorem f_eq_fLowSix (R : Nat) (keypair : List Nat) (hR : R < 2 ^ 32) :
    f R keypair = fLowSix R keypair := by
  unfold f fLowSix
  simp only [lowSix_byteOf, rot1_eq R hR, rot4_eq _ (rotl32_lt R 1)]
  rfl

/-- C12 as stated fails: with `R = 0` and `keypair = [0x01000000, 0]` the index of table 0 is
1 (the low six bits of the top byte of the first intermediate value), whereas the top six
bits of every byte are 0. -/
theorem f_indices_not_top_six :
    ¬ (f 0 [0x01000000, 0] = fTopSix 0 [0x01000000, 0]) := by
  decide!

/-- C12, amended. In the round function `f`, after rotating the input left by 1 and forming
the two intermediate values (the rotated value rotated right by 4 xor `keypair[0]`, and the
rotated value xor `keypair[1]`), the eight 6-bit table indices are the low six bits of each
of the 4 bytes of the first intermediate value (tables 0, 2, 4, 6) and of the second (tables
1, 3, 5, 7), most significant byte first, and `f` returns the OR of the eight lookups. -/
theorem f_indices_low_six (R : Nat) (keypair : List Nat) (hR : R < 2 ^ 32) :
    f R keypair = fLowSix R keypair :=
  f_eq_fLowSix R keypair hR

theorem f_indices_low_six_witness :
    0x89ABCDEF < 2 ^ 32 ∧
    f 0x89ABCDEF [0x1B02112F, 0x3C3B0E2D] = fLowSix 0x89ABCDEF [0x1B02112F, 0x3C3B0E2D] :=
  ⟨by decide, f_indices_low_six 0x89ABCDEF [0x1B02112F, 0x3C3B0E2D] (by decide)⟩

/-- C13. The table-driven round function is the textbook one: for every 32-bit `R` and every
48-bit subkey `K` with 6-bit groups `g1..g8`, `f` applied to `R` and the packed pair
`[g1<<24 | g3<<16 | g5<<8 | g7, g2<<24 | g4<<16 | g6<<8 | g8]` is `P(S(E(R) xor K))`. -/
theorem f_is_textbook_round (R K : Nat) (hR : R < 2 ^ 32) (_hK : K < 2 ^ 48) :
    f R [(Std.sixBits K 1 <<< 24) ||| (Std.sixBits K 3 <<< 16) |||
           (Std.sixBits K 5 <<< 8) ||| Std.sixBits K 7,
         (Std.sixBits K 2 <<< 24) ||| (Std.sixBits K 4 <<< 16) |||
           (Std.sixBits K 6 <<< 8) ||| Std.sixBits K 8] = Std.cipherF R K :=
  f_eq_cipherF R K _ hR (packEven_eq K).symm (packOdd_eq K).symm

theorem f_is_textbook_round_witness :
    (0xF0AAF0AA < 2 ^ 32 ∧ 0x1B02EFFC7072 < 2 ^ 48) ∧
    f 0xF0AAF0AA
      [(Std.sixBits 0x1B02EFFC7072 1 <<< 24) ||| (Std.sixBits 0x1B02EFFC7072 3 <<< 16) |||
         (Std.sixBits 0x1B02EFFC7072 5 <<< 8) ||| Std.sixBits 0x1B02EFFC7072 7,
       (Std.sixBits 0x1B02EFFC7072 2 <<< 24) ||| (Std.sixBits 0x1B02EFFC7072 4 <<< 16) |||
         (Std.sixBits 0x1B02EFFC7072 6 <<< 8) ||| Std.sixBits 0x1B02EFFC7072 8]
      = Std.cipherF 0xF0AAF0AA 0x1B02EFFC7072 :=
  ⟨⟨by decide, by decide⟩, f_is_textbook_round 0xF0AAF0AA 0x1B02EFFC7072 (by decide) (by decide)⟩
/-! ## Feistel bodies with an arbitrary round function -/

theorem foldl_with_lt (g : Nat → Nat → Nat) (ks : List Nat) (st : Nat × Nat)
    (h : st.1 < 2 ^ 32 ∧ st.2 < 2 ^ 32) :
    (ks.foldl (fun st k => (st.2, st.1 ^^^ u32 (g st.2 k))) st).1 < 2 ^ 32 ∧
    (ks.foldl (fun st k => (st.2, st.1 ^^^ u32 (g st.2 k))) st).2 < 2 ^ 32 := by
  induction ks generalizing st with
  | nil => exact h
  | cons k ks ih => exact ih _ ⟨h.2, Nat.xor_lt_two_pow h.1 (u32_lt _)⟩

theorem foldl_with_reverse (g : Nat → Nat → Nat) (ks : List Nat) (st : Nat × Nat) :
    ks.reverse.foldl (fun st k => (st.2, st.1 ^^^ u32 (g st.2 k)))
      (ks.foldl (fun st k => (st.2, st.1 ^^^ u32 (g st.2 k))) st).swap = st.swap := by
  induction ks generalizing st with
  | nil => rfl
  | cons k ks ih =>
    rw [List.foldl_cons, List.reverse_cons, List.foldl_append, ih]
    simp [Prod.swap, Nat.xor_assoc]

theorem feistelBodyWith_inverse (g : Nat → Nat → Nat) (order : List Nat) (v : Nat)
    (hv : v < 2 ^ 64) :
    feistelBodyWith g order.reverse (feistelBodyWith g order v) = v := by
  unfold feistelBodyWith
  simp only
  have hb := foldl_with_lt g order (u32 (v >>> 32), u32 v) ⟨u32_lt _, u32_lt _⟩
  rw [hi_join _ _ hb.2 hb.1, lo_join _ _ hb.1]
  have h := foldl_with_reverse g order (u32 (v >>> 32), u32 v)
  rw [show ((order.foldl (fun st k => (st.2, st.1 ^^^ u32 (g st.2 k)))
          (u32 (v >>> 32), u32 v)).2,
        (order.foldl (fun st k => (st.2, st.1 ^^^ u32 (g st.2 k)))
          (u32 (v >>> 32), u32 v)).1) =
        (order.foldl (fun st k => (st.2, st.1 ^^^ u32 (g st.2 k)))
          (u32 (v >>> 32), u32 v)).swap from rfl, h]
  exact join_split v hv

theorem feistelRound_eq_with (data : List Nat) :
    feistelRound data = fun st k => (st.2, st.1 ^^^ u32 (f st.2 (data.drop (2 * k)))) := by
  funext st k
  unfold feistelRound
  rw [u32_of_lt (f_lt _ _)]

theorem encryptBody_eq_with (data : List Nat) (v : Nat) :
    TDEA_EncryptBody data v =
      feistelBodyWith (fun R k => f R (data.drop (2 * k))) (List.range 16) v := by
  unfold TDEA_EncryptBody feistelBodyWith
  rw [feistelRound_eq_with]

theorem decryptBody_eq_with (data : List Nat) (v : Nat) :
    TDEA_DecryptBody data v =
      feistelBodyWith (fun R k => f R (data.drop (2 * k))) (List.range 16).reverse v := by
  unfold TDEA_DecryptBody feistelBodyWith
  rw [feistelRound_eq_with]

theorem encryptBody_decryptBody (data : List Nat) (v : Nat) (hv : v < 2 ^ 64) :
    TDEA_EncryptBody data (TDEA_DecryptBody data v) = v := by
  rw [encryptBody_eq_with, decryptBody_eq_with]
  have h := feistelBodyWith_inverse (fun R k => f R (data.drop (2 * k)))
    (List.range 16).reverse v hv
  rwa [List.reverse_reverse] at h

theorem des_encrypt_decrypt (key block : Nat) (hb : block < 2 ^ 64) :
    DES_Encrypt key (DES_Decrypt key block) = block := by
  unfold DES_Decrypt DES_Encrypt
  simp only
  rw [ipfwd_iprev _ (decryptBody_lt _ _), encryptBody_decryptBody _ _ (ipfwd_lt _),
    iprev_ipfwd _ hb]

theorem des_encrypt_lt (key block : Nat) : DES_Encrypt key block < 2 ^ 64 := iprev_lt _

theorem des_decrypt_lt (key block : Nat) : DES_Decrypt key block < 2 ^ 64 := iprev_lt _

/-- C14. The Feistel bodies invert each other for any schedule, whatever the round function
computes: for every array `s` of 32 words and every 64-bit `v`,
`TDEA_DecryptBody s (TDEA_EncryptBody s v) = v`; each round maps `(left, right)` to
`(right, left xor f(right, pair k))`, the bodies are the generic Feistel body run over
`0..15` and `15..0`, and the generic body is inverted by the reversed order for every round
function `g`. -/
theorem feistel_bodies_inverse (s : List Nat) (v : Nat) (_hs : s.length = 32)
    (hv : v < 2 ^ 64) :
    TDEA_DecryptBody s (TDEA_EncryptBody s v) = v ∧
    (∀ L R k, feistelRound s (L, R) k = (R, L ^^^ f R (s.drop (2 * k)))) ∧
    TDEA_EncryptBody s v =
      feistelBodyWith (fun R k => f R (s.drop (2 * k))) (List.range 16) v ∧
    TDEA_DecryptBody s v =
      feistelBodyWith (fun R k => f R (s.drop (2 * k))) (List.range 16).reverse v ∧
    ∀ (g : Nat → Nat → Nat) (order : List Nat),
      feistelBodyWith g order.reverse (feistelBodyWith g order v) = v :=
  ⟨decryptBody_encryptBody s v hv, fun _ _ _ => rfl, encryptBody_eq_with s v,
    decryptBody_eq_with s v, fun g order => feistelBodyWith_inverse g order v hv⟩

theorem feistel_bodies_inverse_witness :
    ((List.range 32).length = 32 ∧ 0x0123456789ABCDEF < 2 ^ 64) ∧
    TDEA_DecryptBody (List.range 32) (TDEA_EncryptBody (List.range 32) 0x0123456789ABCDEF)
      = 0x0123456789ABCDEF :=
  ⟨⟨by decide, by decide⟩,
    (feistel_bodies_inverse (List.range 32) 0x0123456789ABCDEF (by decide) (by decide)).1⟩

/-- C19. Encryption is onto for every key: for every 64-bit key `K` and 64-bit block `B`,
`DES_Encrypt K (DES_Decrypt K B) = B`; with the round trip, `DES_Encrypt K` is a bijection
of the 64-bit blocks. -/
theorem des_encrypt_onto (K B : Nat) (_hK : K < 2 ^ 64) (hB : B < 2 ^ 64) :
    DES_Encrypt K (DES_Decrypt K B) = B ∧
    Set.BijOn (DES_Encrypt K) {b | b < 2 ^ 64} {b | b < 2 ^ 64} := by
  refine ⟨des_encrypt_decrypt K B hB, ?_, ?_, ?_⟩
  · intro b _
    exact des_encrypt_lt K b
  · intro a ha b hb hab
    have h := congrArg (DES_Decrypt K) hab
    rwa [des_decrypt_encrypt K a ha, des_decrypt_encrypt K b hb] at h
  · intro b hb
    exact ⟨DES_Decrypt K b, des_decrypt_lt K b, des_encrypt_decrypt K b hb⟩

theorem des_encrypt_onto_witness :
    (0x133457799BBCDFF1 < 2 ^ 64 ∧ 0x85E813540F0AB405 < 2 ^ 64) ∧
    DES_Encrypt 0x133457799BBCDFF1 (DES_Decrypt 0x133457799BBCDFF1 0x85E813540F0AB405)
      = 0x85E813540F0AB405 :=
  ⟨⟨by decide, by decide⟩,
    (des_encrypt_onto 0x133457799BBCDFF1 0x85E813540F0AB405 (by decide) (by decide)).1⟩

/-! ## The weak key `0x0101010101010101` -/

theorem weak_key_schedule :
    TDEA_GenDESKey freshKey (put64 0x0101010101010101 (List.replicate 8 0))
      = List.replicate 32 0 := by
  decide!

theorem reversePairs_zero : reversePairs (List.replicate 32 0) = List.replicate 32 0 := by
  decide!

theorem weak_key_decrypt_eq_encrypt (B : Nat) :
    DES_Decrypt 0x0101010101010101 B = DES_Encrypt 0x0101010101010101 B := by
  unfold DES_Decrypt DES_Encrypt
  simp only
  rw [weak_key_schedule, decryptBody_eq_encryptBody_reversePairs, reversePairs_zero]

/-- C20. Weak keys are accepted and make encryption its own inverse: for the key
`0x0101010101010101` the sixteen derived subkey pairs are all equal, so for every 64-bit
block `B`, `DES_Encrypt K B = DES_Decrypt K B` and `DES_Encrypt K (DES_Encrypt K B) = B`. -/
theorem weak_key_self_inverse (B : Nat) (hB : B < 2 ^ 64) :
    (∀ k, k < 16 →
      (TDEA_GenDESKey freshKey (put64 0x0101010101010101 (List.replicate 8 0))).getD (2 * k) 0
        = (TDEA_GenDESKey freshKey (put64 0x0101010101010101 (List.replicate 8 0))).getD 0 0 ∧
      (TDEA_GenDESKey freshKey
          (put64 0x0101010101010101 (List.replicate 8 0))).getD (2 * k + 1) 0
        = (TDEA_GenDESKey freshKey (put64 0x0101010101010101 (List.replicate 8 0))).getD 1 0) ∧
    DES_Encrypt 0x0101010101010101 B = DES_Decrypt 0x0101010101010101 B ∧
    DES_Encrypt 0x0101010101010101 (DES_Encrypt 0x0101010101010101 B) = B := by
  refine ⟨?_, (weak_key_decrypt_eq_encrypt B).symm, ?_⟩
  · rw [weak_key_schedule]
    decide!
  · have h := des_decrypt_encrypt 0x0101010101010101 B hB
    rwa [weak_key_decrypt_eq_encrypt] at h

theorem weak_key_self_inverse_witness :
    0x0123456789ABCDEF < 2 ^ 64 ∧
    DES_Encrypt 0x0101010101010101 (DES_Encrypt 0x0101010101010101 0x0123456789ABCDEF)
      = 0x0123456789ABCDEF :=
  ⟨by decide, (weak_key_self_inverse 0x0123456789ABCDEF (by decide)).2.2⟩
/-! ## Avalanche at the known-answer vector -/

/-- C16. Flipping one plaintext bit changes a large fraction of the ciphertext: under key
`0x133457799BBCDFF1` and plaintext `0x0123456789ABCDEF`, for every bit position `i` in
`0..63` the two ciphertexts differ in at least 16 of the 64 bits. -/
theorem avalanche_known_vector (i : Nat) (hi : i < 64) :
    16 ≤ popCount (DES_Encrypt 0x133457799BBCDFF1 (0x0123456789ABCDEF ^^^ 2 ^ i) ^^^
      DES_Encrypt 0x133457799BBCDFF1 0x0123456789ABCDEF) := by
  revert i
  decide!

theorem avalanche_known_vector_witness :
    5 < 64 ∧
    16 ≤ popCount (DES_Encrypt 0x133457799BBCDFF1 (0x0123456789ABCDEF ^^^ 2 ^ 5) ^^^
      DES_Encrypt 0x133457799BBCDFF1 0x0123456789ABCDEF) :=
  ⟨by decide, avalanche_known_vector 5 (by decide)⟩

/-! ## Disjoint output bits of the combined tables -/

theorem sp_subset_tableOr : ∀ i, i < 8 → ∀ a, a < 64 → spAt i a &&& tableOr i = spAt i a := by
  decide!

theorem tableOr_disjoint : ∀ i, i < 8 → ∀ j, j < 8 → i ≠ j → tableOr i &&& tableOr j = 0 := by
  decide!

theorem tableOr_popCount : ∀ i, i < 8 → popCount (tableOr i) = 4 := by
  decide!

theorem tableOr_cover : (List.range 8).foldl (fun acc i => acc ||| tableOr i) 0 = 0xFFFFFFFF := by
  decide!

theorem and_eq_zero_of_subset {x y m n : Nat} (hx : x &&& m = x) (hy : y &&& n = y)
    (hmn : m &&& n = 0) : x &&& y = 0 := by
  apply Nat.eq_of_testBit_eq
  intro t
  have h := congrArg (fun z => z.testBit t) hmn
  simp only [Nat.testBit_and, Nat.zero_testBit] at h
  rw [← hx, ← hy]
  simp only [Nat.testBit_and, Nat.zero_testBit]
  cases h1 : m.testBit t <;> cases h2 : n.testBit t <;> simp_all

theorem sp_disjoint (i j a b : Nat) (hi : i < 8) (hj : j < 8) (hij : i ≠ j) (ha : a < 64)
    (hb : b < 64) : spAt i a &&& spAt j b = 0 :=
  and_eq_zero_of_subset (sp_subset_tableOr i hi a ha) (sp_subset_tableOr j hj b hb)
    (tableOr_disjoint i hi j hj hij)

theorem or_eq_xor_of_and_eq_zero {x y : Nat} (h : x &&& y = 0) : x ||| y = x ^^^ y := by
  apply Nat.eq_of_testBit_eq
  intro t
  have ht := congrArg (fun z => z.testBit t) h
  simp only [Nat.testBit_and, Nat.zero_testBit] at ht
  rw [Nat.testBit_or, Nat.testBit_xor]
  cases h1 : x.testBit t <;> cases h2 : y.testBit t <;> simp_all

theorem add_eq_or_of_and_eq_zero (x : Nat) : ∀ y, x &&& y = 0 → x + y = x ||| y := by
  induction x using Nat.strong_induction_on with
  | _ x ih =>
    intro y h
    by_cases hx : x = 0
    · subst hx; simp
    · have hlt : x / 2 < x := Nat.div_lt_self (Nat.pos_of_ne_zero hx) (by decide)
      have hdiv : x / 2 &&& y / 2 = 0 := by rw [← Nat.and_div_two, h]
      have ih2 := ih (x / 2) hlt (y / 2) hdiv
      have hmod : ¬ (x % 2 = 1 ∧ y % 2 = 1) := by
        rw [← Nat.and_mod_two_eq_one, h]; decide
      have hor := @Nat.or_mod_two_eq_one x y
      have hor2 : (x ||| y) / 2 = x / 2 ||| y / 2 := Nat.or_div_two
      omega

theorem foldl_or_disjoint (l : List Nat) : ∀ acc : Nat, (∀ x ∈ l, acc &&& x = 0) →
    l.Pairwise (fun x y => x &&& y = 0) →
    l.foldl (fun a x => a ||| x) acc = l.foldl (fun a x => a ^^^ x) acc ∧
    l.foldl (fun a x => a ||| x) acc = acc + l.sum := by
  induction l with
  | nil => intro acc _ _; exact ⟨rfl, rfl⟩
  | cons x xs ih =>
    intro acc hacc hp
    rw [List.pairwise_cons] at hp
    have hax : acc &&& x = 0 := hacc x (List.mem_cons_self _ _)
    have hnext : ∀ y ∈ xs, (acc ||| x) &&& y = 0 := by
      intro y hy
      rw [Nat.and_distrib_right, hacc y (List.mem_cons_of_mem _ hy), hp.1 y hy]
      rfl
    obtain ⟨h1, h2⟩ := ih (acc ||| x) hnext hp.2
    simp only [List.foldl_cons, List.sum_cons]
    refine ⟨?_, ?_⟩
    · rw [h1, or_eq_xor_of_and_eq_zero hax]
    · rw [h2, ← add_eq_or_of_and_eq_zero acc x hax, Nat.add_assoc]

theorem foldl_or_eight (l0 l1 l2 l3 l4 l5 l6 l7 : Nat) :
    [l0, l1, l2, l3, l4, l5, l6, l7].foldl (fun a x => a ||| x) 0
      = l0 ||| l1 ||| l2 ||| l3 ||| l4 ||| l5 ||| l6 ||| l7 := by
  simp only [List.foldl_cons, List.foldl_nil, Nat.zero_or]

theorem f_eq_foldl_lookups (R : Nat) (keypair : List Nat) :
    f R keypair = (lookups R keypair).foldl (fun a x => a ||| x) 0 := by
  unfold lookups
  simp only
  rw [foldl_or_eight]
  rfl

theorem lookups_pairwise (R : Nat) (keypair : List Nat) :
    (lookups R keypair).Pairwise (fun x y => x &&& y = 0) := by
  have hd : ∀ i j a b, i < 8 → j < 8 → i ≠ j →
      spAt i (a &&& 0x3f) &&& spAt j (b &&& 0x3f) = 0 :=
    fun i j a b hi hj hij => sp_disjoint i j _ _ hi hj hij (and_63_lt a) (and_63_lt b)
  unfold lookups
  simp only [List.pairwise_cons, List.forall_mem_cons, List.not_mem_nil, false_implies,
    implies_true, and_true, List.Pairwise.nil]
  refine ⟨⟨?_, ?_, ?_, ?_, ?_, ?_, ?_⟩, ⟨?_, ?_, ?_, ?_, ?_, ?_⟩, ⟨?_, ?_, ?_, ?_, ?_⟩,
    ⟨?_, ?_, ?_, ?_⟩, ⟨?_, ?_, ?_⟩, ⟨?_, ?_⟩, ?_⟩
  all_goals exact hd _ _ _ _ (by decide) (by decide) (by decide)

theorem f_eq_xor_sum (R : Nat) (keypair : List Nat) :
    f R keypair = (lookups R keypair).foldl (fun a x => a ^^^ x) 0 ∧
    f R keypair = (lookups R keypair).sum := by
  have h := foldl_or_disjoint (lookups R keypair) 0 (fun x _ => Nat.zero_and x)
    (lookups_pairwise R keypair)
  rw [f_eq_foldl_lookups]
  exact ⟨h.1, by rw [h.2, Nat.zero_add]⟩

/-- C15. The eight combined tables write disjoint output bits that together cover the word:
entries of two different tables have no bit in common, the OR of all entries of a table has
exactly 4 bits set, the OR of all entries of all tables is `0xFFFFFFFF`, and so the OR of the
eight lookups of `f` equals their XOR and their sum. -/
theorem sp_tables_disjoint_cover (i j a b R : Nat) (keypair : List Nat) (hi : i < 8)
    (hj : j < 8) (hij : i ≠ j) (ha : a < 64) (hb : b < 64) :
    spAt i a &&& spAt j b = 0 ∧
    popCount (tableOr i) = 4 ∧
    (List.range 8).foldl (fun acc t => acc ||| tableOr t) 0 = 0xFFFFFFFF ∧
    f R keypair = (lookups R keypair).foldl (fun x y => x ||| y) 0 ∧
    f R keypair = (lookups R keypair).foldl (fun x y => x ^^^ y) 0 ∧
    f R keypair = (lookups R keypair).sum :=
  ⟨sp_disjoint i j a b hi hj hij ha hb, tableOr_popCount i hi, tableOr_cover,
    f_eq_foldl_lookups R keypair, (f_eq_xor_sum R keypair).1, (f_eq_xor_sum R keypair).2⟩

theorem sp_tables_disjoint_cover_witness :
    (2 < 8 ∧ 5 < 8 ∧ 2 ≠ 5 ∧ 17 < 64 ∧ 63 < 64) ∧
    spAt 2 17 &&& spAt 5 63 = 0 ∧ popCount (tableOr 2) = 4 :=
  ⟨⟨by decide, by decide, by decide, by decide, by decide⟩,
    (sp_tables_disjoint_cover 2 5 17 63 0x89ABCDEF [0x1B02112F, 0x3C3B0E2D] (by decide)
      (by decide) (by decide) (by decide) (by decide)).1,
    (sp_tables_disjoint_cover 2 5 17 63 0x89ABCDEF [0x1B02112F, 0x3C3B0E2D] (by decide)
      (by decide) (by decide) (by decide) (by decide)).2.1⟩
/-! ## The bits of the working key above bit 55 -/

theorem testBit_rotateKey_high (w s j : Nat) (hs : s = 1 ∨ s = 2) (hj : 30 ≤ j) :
    (rotateKey w s).testBit j = (u64 (w <<< s)).testBit j := by
  have h0 : ¬ j = 0 := by omega
  have h1 : ¬ j < 2 := by omega
  have h2 : ¬ j - 28 = 0 := by omega
  have h3 : ¬ j - 28 < 2 := by omega
  rcases hs with rfl | rfl
  · rw [rotateKey_one]
    simp only [Nat.testBit_or, Nat.testBit_and, testBit_u64, Nat.testBit_shiftLeft,
      Nat.testBit_shiftRight, testBit_not64, testBit_lit_one]
    by_cases h64 : j < 64
    · simp [h0, h2, h64]
    · simp [h0, h2, h64]
  · rw [rotateKey_two]
    simp only [Nat.testBit_or, Nat.testBit_and, testBit_u64, Nat.testBit_shiftLeft,
      Nat.testBit_shiftRight, testBit_not64, testBit_lit_three]
    by_cases h64 : j < 64
    · simp [h1, h3, h64]
    · simp [h1, h3, h64]

theorem rotateKey_shiftRight_56 (w s : Nat) (hs : s = 1 ∨ s = 2) :
    rotateKey w s >>> 56 = u64 (w <<< s) >>> 56 := by
  apply Nat.eq_of_testBit_eq
  intro i
  rw [Nat.testBit_shiftRight, Nat.testBit_shiftRight,
    testBit_rotateKey_high w s (56 + i) hs (by omega)]

theorem pc2_mod (w : Nat) : pc2 w = pc2 (w % 2 ^ 56) := by
  rw [pc2_eq_permute w, pc2_eq_permute (w % 2 ^ 56), Nat.mod_mod]

/-- C17. The update of the working key in `TDEA_GenDESKey` is an exact rotation of both
28-bit halves whatever is left above bit 55: for every 64-bit `wkey` and each shift amount
`s` in `{1, 2}` the low 56 bits after the update are `rotl28(C, s) || rotl28(D, s)`, with `C`
the bits 55..28 and `D` the bits 27..0 before the update. The bits 56..63 are not cleared
(they are those of `wkey << s`, and can be nonzero), and `pc2` does not read them. -/
theorem rotateKey_exact_rotation (wkey s : Nat) (_hw : wkey < 2 ^ 64)
    (hs : s = 1 ∨ s = 2) :
    rotateKey wkey s % 2 ^ 56 =
      (Std.rotl28 ((wkey >>> 28) % 2 ^ 28) s <<< 28) ||| Std.rotl28 (wkey % 2 ^ 28) s ∧
    rotateKey wkey s >>> 56 = u64 (wkey <<< s) >>> 56 ∧
    rotateKey (2 ^ 55) 1 >>> 56 = 1 ∧
    pc2 (rotateKey wkey s) = pc2 (rotateKey wkey s % 2 ^ 56) :=
  ⟨rotateKey_mod wkey s hs, rotateKey_shiftRight_56 wkey s hs, by decide!, pc2_mod _⟩

theorem rotateKey_exact_rotation_witness :
    (0xF0CCAAF556678F00 < 2 ^ 64 ∧ (2 = 1 ∨ 2 = 2)) ∧
    rotateKey 0xF0CCAAF556678F00 2 % 2 ^ 56 =
      (Std.rotl28 ((0xF0CCAAF556678F00 >>> 28) % 2 ^ 28) 2 <<< 28) |||
        Std.rotl28 (0xF0CCAAF556678F00 % 2 ^ 28) 2 :=
  ⟨⟨by decide, by decide⟩,
    (rotateKey_exact_rotation 0xF0CCAAF556678F00 2 (by decide) (by decide)).1⟩
/-! ## Complementation -/

theorem testBit_complement (n x i : Nat) :
    (complement n x).testBit i = xor (decide (i < n)) (x.testBit i) := by
  unfold complement
  rw [Nat.testBit_xor, Nat.testBit_two_pow_sub_one]

theorem complement_lt (n x : Nat) (hx : x < 2 ^ n) : complement n x < 2 ^ n :=
  Nat.xor_lt_two_pow (Nat.sub_lt (Nat.two_pow_pos n) (by decide)) hx

theorem complement_xor_complement (n a b : Nat) :
    complement n a ^^^ complement n b = a ^^^ b := by
  apply Nat.eq_of_testBit_eq
  intro i
  simp only [Nat.testBit_xor, testBit_complement]
  cases decide (i < n) <;> cases a.testBit i <;> cases b.testBit i <;> rfl

theorem complement_xor (n a b : Nat) : complement n a ^^^ b = complement n (a ^^^ b) := by
  unfold complement
  rw [Nat.xor_assoc]

theorem complement_shiftRight (a b x : Nat) :
    complement (a + b) x >>> b = complement a (x >>> b) := by
  apply Nat.eq_of_testBit_eq
  intro i
  simp only [Nat.testBit_shiftRight, testBit_complement]
  have h : (b + i < a + b) ↔ (i < a) := by omega
  rw [decide_eq_decide.mpr h]

theorem complement_mod (n b x : Nat) (hb : b ≤ n) :
    complement n x % 2 ^ b = complement b (x % 2 ^ b) := by
  apply Nat.eq_of_testBit_eq
  intro i
  simp only [Nat.testBit_mod_two_pow, testBit_complement]
  by_cases hi : i < b
  · have : i < n := by omega
    simp [hi, this]
  · simp [hi]

theorem complement_concat (a b C D : Nat) (hD : D < 2 ^ b) :
    (complement a C <<< b) ||| complement b D = complement (a + b) ((C <<< b) ||| D) := by
  apply Nat.eq_of_testBit_eq
  intro i
  simp only [Nat.testBit_or, Nat.testBit_shiftLeft, testBit_complement]
  by_cases hi : i < b
  · have h1 : ¬ b ≤ i := by omega
    have h2 : i < a + b := by omega
    simp [hi, h1, h2]
  · have h1 : b ≤ i := by omega
    rw [testBit_eq_false_of_lt hD h1]
    by_cases h3 : i < a + b
    · have h4 : i - b < a := by omega
      simp [hi, h1, h3, h4]
    · have h4 : ¬ i - b < a := by omega
      simp [hi, h1, h3, h4]

theorem permute_complement (t : List Nat) (w v : Nat)
    (ht : ∀ k, k < t.length → w - t.getD k 0 < w) :
    Std.permute t w (complement w v) = complement t.length (Std.permute t w v) := by
  apply Nat.eq_of_testBit_eq
  intro i
  simp only [testBit_permute, testBit_complement]
  by_cases hi : i < t.length
  · have h := ht (t.length - 1 - i) (by omega)
    rw [decide_eq_true hi, decide_eq_true h]
    simp only [Bool.true_and]
  · simp [hi]

theorem IP_range : ∀ k, k < Std.IP.length → 64 - Std.IP.getD k 0 < 64 := by decide!
theorem IPinv_range : ∀ k, k < Std.IPinv.length → 64 - Std.IPinv.getD k 0 < 64 := by decide!
theorem E_range : ∀ k, k < Std.E.length → 32 - Std.E.getD k 0 < 32 := by decide!
theorem PC1_range : ∀ k, k < Std.PC1.length → 64 - Std.PC1.getD k 0 < 64 := by decide!
theorem PC2_range : ∀ k, k < Std.PC2.length → 56 - Std.PC2.getD k 0 < 56 := by decide!

theorem rotl28_complement (x s : Nat) (hx : x < 2 ^ 28) (hs : s = 1 ∨ s = 2) :
    Std.rotl28 (complement 28 x) s = complement 28 (Std.rotl28 x s) := by
  have hx2 : ∀ j, 28 ≤ j → x.testBit j = false := fun j hj => testBit_eq_false_of_lt hx hj
  apply Nat.eq_of_testBit_eq
  intro i
  by_cases hi : i < 28
  · rcases hs with rfl | rfl
    · simp only [Std.rotl28, Nat.testBit_mod_two_pow, Nat.testBit_or, Nat.testBit_shiftLeft,
        Nat.testBit_shiftRight, testBit_complement]
      interval_cases i <;> simp [-Nat.testBit_zero, hx2]
    · simp only [Std.rotl28, Nat.testBit_mod_two_pow, Nat.testBit_or, Nat.testBit_shiftLeft,
        Nat.testBit_shiftRight, testBit_complement]
      interval_cases i <;> simp [-Nat.testBit_zero, hx2]
  · rw [testBit_eq_false_of_lt (rotl28_lt _ _) (by omega),
      testBit_eq_false_of_lt (complement_lt 28 _ (rotl28_lt _ _)) (by omega)]

theorem CD_complement (key n : Nat) :
    Std.CD (complement 64 key) n =
      (complement 28 (Std.CD key n).1, complement 28 (Std.CD key n).2) := by
  induction n with
  | zero =>
    show (Std.permute Std.PC1 64 (complement 64 key) >>> 28,
      Std.permute Std.PC1 64 (complement 64 key) % 2 ^ 28) = _
    rw [permute_complement Std.PC1 64 key PC1_range]
    show (complement (28 + 28) _ >>> 28, complement 56 _ % 2 ^ 28) = _
    rw [complement_shiftRight, complement_mod 56 28 _ (by decide)]
    rfl
  | succ n ih =>
    show (Std.rotl28 (Std.CD (complement 64 key) n).1 _,
      Std.rotl28 (Std.CD (complement 64 key) n).2 _) = _
    rw [ih]
    simp only
    rw [rotl28_complement _ _ (CD_lt key n).1 (leftShifts_cases _),
      rotl28_complement _ _ (CD_lt key n).2 (leftShifts_cases _)]
    rfl

theorem K_complement (key n : Nat) :
    Std.K (complement 64 key) n = complement 48 (Std.K key n) := by
  unfold Std.K
  rw [CD_complement]
  simp only
  rw [complement_concat 28 28 _ _ (CD_lt key n).2]
  exact permute_complement Std.PC2 56 _ PC2_range

theorem cipherF_complement (R K : Nat) :
    Std.cipherF (complement 32 R) (complement 48 K) = Std.cipherF R K := by
  unfold Std.cipherF
  rw [permute_complement Std.E 32 R E_range]
  show Std.permute Std.P 32 (Std.substitute (complement 48 K ^^^ complement 48 _)) = _
  rw [complement_xor_complement]

theorem rounds_complement (ks : Nat → Nat) (L0 R0 n : Nat) :
    Std.rounds (fun m => complement 48 (ks m)) (complement 32 L0) (complement 32 R0) n =
      (complement 32 (Std.rounds ks L0 R0 n).1, complement 32 (Std.rounds ks L0 R0 n).2) := by
  induction n with
  | zero => rfl
  | succ n ih =>
    show ((Std.rounds _ _ _ n).2, (Std.rounds _ _ _ n).1 ^^^ Std.cipherF (Std.rounds _ _ _ n).2 _)
      = _
    rw [ih]
    simp only
    rw [cipherF_complement, complement_xor]
    rfl

theorem cipherF_lt (R K : Nat) : Std.cipherF R K < 2 ^ 32 := permute_lt Std.P 32 _

theorem rounds_lt (ks : Nat → Nat) (L0 R0 n : Nat) (hL : L0 < 2 ^ 32) (hR : R0 < 2 ^ 32) :
    (Std.rounds ks L0 R0 n).1 < 2 ^ 32 ∧ (Std.rounds ks L0 R0 n).2 < 2 ^ 32 := by
  induction n with
  | zero => exact ⟨hL, hR⟩
  | succ n ih => exact ⟨ih.2, Nat.xor_lt_two_pow ih.1 (cipherF_lt _ _)⟩

theorem encrypt_complement (key block : Nat) :
    Std.encrypt (complement 64 key) (complement 64 block) =
      complement 64 (Std.encrypt key block) := by
  unfold Std.encrypt
  simp only
  rw [permute_complement Std.IP 64 block IP_range]
  have hK : Std.K (complement 64 key) = fun m => complement 48 (Std.K key m) :=
    funext (K_complement key)
  have hIP : Std.IP.length = 32 + 32 := rfl
  rw [hK, hIP, complement_shiftRight, complement_mod (32 + 32) 32 _ (by decide),
    rounds_complement]
  simp only
  have hb := rounds_lt (Std.K key) (Std.permute Std.IP 64 block >>> 32)
    (Std.permute Std.IP 64 block % 2 ^ 32) 16 (shiftRight32_lt (permute_IP_lt block))
    (Nat.mod_lt _ (by decide))
  rw [complement_concat 32 32 _ _ hb.1]
  exact permute_complement Std.IPinv 64 _ IPinv_range

theorem des_encrypt_complement (K B : Nat) (hK : K < 2 ^ 64) :
    DES_Encrypt (not64 K) (not64 B) = not64 (DES_Encrypt K B) := by
  rw [des_encrypt_eq_textbook (not64 K) (not64 B) (complement_lt 64 K hK),
    des_encrypt_eq_textbook K B hK]
  exact encrypt_complement K B

/-- C18. Complementation property: for every 64-bit key `K` and 64-bit block `B`,
`DES_Encrypt (~K) (~B) = ~DES_Encrypt K B`, with `~` the 64-bit bitwise complement. -/
theorem des_complementation (K B : Nat) (hK : K < 2 ^ 64) (_hB : B < 2 ^ 64) :
    DES_Encrypt (not64 K) (not64 B) = not64 (DES_Encrypt K B) :=
  des_encrypt_complement K B hK

theorem des_complementation_witness :
    (0x133457799BBCDFF1 < 2 ^ 64 ∧ 0x0123456789ABCDEF < 2 ^ 64) ∧
    DES_Encrypt (not64 0x133457799BBCDFF1) (not64 0x0123456789ABCDEF)
      = not64 (DES_Encrypt 0x133457799BBCDFF1 0x0123456789ABCDEF) :=
  ⟨⟨by decide, by decide⟩,
    des_complementation 0x133457799BBCDFF1 0x0123456789ABCDEF (by decide) (by decide)⟩

end TDEA
